import Mathlib

/-!
# crack.c : dictionary attack on a list of MD5 digests

A shallow embedding of `src/crack.c` (`load_hashes` and `main`) and the
properties of its target loader and matching loop.

Modelling conventions.

* A C string is the list of its characters before the terminating NUL
  (`CStr`).  `strcmp(a, b) == 0` is equality of such lists.
* A file opened with `fopen` is `none` when the open fails, and otherwise the
  list of strings that the successive successful `fgets` calls put in the
  buffer; the `fgets` call that returns `NULL` ends the list.
* `md5` comes from `md5.h`, which is outside the repository source: it is a
  parameter of type `CStr → Option CStr`, `none` standing for a `NULL` return.
  Its second argument `(int)wl` is the length of the first and is not passed
  separately.
* The outcome of each allocation (`malloc`, `realloc`, `strdup`, `calloc`) is
  read from an `Allocator`, so the out-of-memory branches are part of the
  model.
* The `int` variable `cap` of `load_hashes` is an integer that wraps around at
  32 bits (`wrapInt`): `cap *= 2` at `cap = 2^30` gives `-2^31`, the value that
  two's-complement machines produce for this signed overflow, and the `realloc`
  request made with it is put to the `Allocator` like every other request.  On
  an LP64 machine that request is for `2^64 - 2^34` bytes, which no allocator
  grants, so there `load_hashes` returns `NULL` at the store of line
  `2^30 + 1` (`load_hashes_overflow`).
* The `int` counters `n`, `hash_count`, `cracked_count` are natural numbers.
  `cracked_count` never exceeds `hash_count`, which is the final `n`.  At every
  store `n` is at most the last granted `cap`, so `n` stays at or below `2^30`
  (`load_loop_stored_le`) unless a request with a wrapped `cap` has been
  granted; what the model does after such a grant is a convention.
* Only standard output and the exit status of `main` are modelled; the
  messages written to the error stream are not.
* The fields `idx` of an event and `calls`, `reads` of a state are ghost
  data: they record which entry an output line is about, and which words were
  handed to `md5` / returned by `fgets` together with the value that
  `cracked_count` had at that moment.
-/

namespace Crack

/-- A C string: the characters before the terminating NUL. -/
abbrev CStr := List Char

/-! ## Line trimming (lines 35-39 and 115-119) -/

/-- The loop `while (len > 0 && (line[len-1] == '\n' || line[len-1] == '\r')) len--`
started at `len`: the value of `len` when the loop exits. -/
def trimLen (line : CStr) : Nat → Nat
  | 0 => 0
  | len + 1 =>
    if line.getD len '\x00' = '\n' ∨ line.getD len '\x00' = '\r' then trimLen line len
    else len + 1

/-- The buffer after the trim loop: `line[len] = '\0'` cuts the string to its
first `len` characters, where `len` starts at `strlen(line)`. -/
def trim (line : CStr) : CStr :=
  line.take (trimLen line line.length)

/-! ## Allocation outcomes -/

/-- Whether each allocation request succeeds. -/
structure Allocator where
  /-- The call `malloc(sizeof(char*) * cap)` of line 24. -/
  mallocList : Bool
  /-- The call `realloc(list, sizeof(char*) * cap)` of line 44, by the new value
  of the `int` variable `cap`. -/
  reallocList : Int → Bool
  /-- The call `strdup(line)` of line 57, by the value of `n`. -/
  strdupLine : Nat → Bool
  /-- The call `calloc(hash_count, sizeof(bool))` of line 92. -/
  callocFlags : Bool

/-- An allocator whose requests all succeed. -/
def Allocator.total : Allocator :=
  { mallocList := true, reallocList := fun _ => true,
    strdupLine := fun _ => true, callocFlags := true }

/-- Every allocation request succeeds. -/
def Allocator.AllOk (a : Allocator) : Prop :=
  a.mallocList = true ∧ (∀ c, a.reallocList c = true) ∧
    (∀ n, a.strdupLine n = true) ∧ a.callocFlags = true

/-! ## `load_hashes` (lines 15-72) -/

def INITIAL_HASH_CAP : Nat := 128

/-- The value that a 32-bit `int` holds after an operation whose exact result
is `x`: `x` itself between `-2^31` and `2^31 - 1`, wrapped around otherwise. -/
def wrapInt (x : Int) : Int :=
  (x + 2147483648) % 4294967296 - 2147483648

/-- The `while (fgets(line, sizeof(line), hf))` loop of lines 33-67 over the
remaining lines, from the current `cap`, `list` and `n`.  The result is the
final `(list, n)`, or `none` when an allocation fails (lines 45-52, 58-65).
`cap *= 2` is computed in 32-bit `int` arithmetic.  `n` is a natural number:
with an allocator that refuses a `realloc` made with a wrapped `cap` it never
exceeds `2^30` (`load_loop_stored_le`), so `n++` does not overflow. -/
def load_loop (a : Allocator) : List CStr → Int → List CStr → Nat → Option (List CStr × Nat)
  | [], _, list, n => some (list, n)
  | line :: rest, cap, list, n =>
    if trim line = [] then load_loop a rest cap list n
    else if (n : Int) ≥ cap then
      if a.reallocList (wrapInt (cap * 2)) then
        if a.strdupLine n then
          load_loop a rest (wrapInt (cap * 2)) (list ++ [trim line]) (n + 1)
        else none
      else none
    else
      if a.strdupLine n then load_loop a rest cap (list ++ [trim line]) (n + 1)
      else none

/-- The function `load_hashes`: the returned pointer (`none` for `NULL`) and the
value stored in `*out_count`.  `file` is the result of `fopen(hashFilename, "r")`. -/
def load_hashes (a : Allocator) (file : Option (List CStr)) : Option (List CStr) × Nat :=
  match file with
  | none => (none, 0)
  | some lines =>
    if a.mallocList then
      match load_loop a lines (INITIAL_HASH_CAP : Int) [] 0 with
      | some (list, n) => (some list, n)
      | none => (none, 0)
    else (none, 0)

/-! ## The matching loop of `main` (lines 109-146) -/

/-- One execution of `printf("%s %s\n", hashes[i], word)` (line 134); `idx` is
the loop index `i` at that moment. -/
structure Event where
  idx : Nat
  digest : CStr
  word : CStr
  deriving DecidableEq, Repr

/-- The variables of the matching loop. -/
structure State where
  /-- The array `cracked`. -/
  cracked : List Bool
  /-- The counter `cracked_count`. -/
  cracked_count : Nat
  /-- The match lines printed so far, oldest first. -/
  events : List Event
  /-- The arguments of the calls of `md5` so far, each with the value of
  `cracked_count` at the call. -/
  calls : List (CStr × Nat)
  /-- The buffers returned by the successful `fgets` calls so far, each with the
  value of `cracked_count` at the call. -/
  reads : List (CStr × Nat)
  deriving DecidableEq, Repr

/-- The state on entry to the loop: `cracked = calloc(hash_count, sizeof(bool))`
and `cracked_count = 0`. -/
def initState (hash_count : Nat) : State :=
  { cracked := List.replicate hash_count false, cracked_count := 0,
    events := [], calls := [], reads := [] }

/-- The body of `for (int i = 0; i < hash_count; ++i)` (lines 131-139) at index `i`. -/
def scanStep (hashes : List CStr) (digest word : CStr) (st : State) (i : Nat) : State :=
  if st.cracked.getD i false = true then st
  else if digest = hashes.getD i [] then
    { st with
      events := st.events ++ [{ idx := i, digest := hashes.getD i [], word := word }]
      cracked := st.cracked.set i true
      cracked_count := st.cracked_count + 1 }
  else st

/-- The first `k` iterations of the `for` loop of lines 130-140. -/
def forLoopUpTo (hashes : List CStr) (digest word : CStr) (k : Nat) (st : State) : State :=
  (List.range k).foldl (scanStep hashes digest word) st

/-- The whole `for` loop of lines 130-140. -/
def forLoop (hashes : List CStr) (hash_count : Nat) (digest word : CStr) (st : State) : State :=
  forLoopUpTo hashes digest word hash_count st

/-- The `while (fgets(word, sizeof(word), df))` loop of lines 113-146 over the
remaining lines of the dictionary. -/
def whileLoop (hashes : List CStr) (hash_count : Nat) (md5 : CStr → Option CStr) :
    List CStr → State → State
  | [], st => st
  | line :: rest, st =>
    let st1 := { st with reads := st.reads ++ [(line, st.cracked_count)] }
    if trim line = [] then whileLoop hashes hash_count md5 rest st1
    else
      let st2 := { st1 with calls := st1.calls ++ [(trim line, st1.cracked_count)] }
      match md5 (trim line) with
      | none => whileLoop hashes hash_count md5 rest st2
      | some digest =>
        let st3 := forLoop hashes hash_count digest (trim line) st2
        if st3.cracked_count = hash_count then st3
        else whileLoop hashes hash_count md5 rest st3

/-- The loop of lines 113-146 with the test of line 145
(`if (cracked_count == hash_count) break;`) removed. -/
def whileLoopNoBreak (hashes : List CStr) (hash_count : Nat) (md5 : CStr → Option CStr) :
    List CStr → State → State
  | [], st => st
  | line :: rest, st =>
    let st1 := { st with reads := st.reads ++ [(line, st.cracked_count)] }
    if trim line = [] then whileLoopNoBreak hashes hash_count md5 rest st1
    else
      let st2 := { st1 with calls := st1.calls ++ [(trim line, st1.cracked_count)] }
      match md5 (trim line) with
      | none => whileLoopNoBreak hashes hash_count md5 rest st2
      | some digest =>
        whileLoopNoBreak hashes hash_count md5 rest
          (forLoop hashes hash_count digest (trim line) st2)

/-- The matching loop as `main` runs it: over the loaded `hashes`, with
`hash_count` their number and the flags freshly zeroed. -/
def run (hashes : List CStr) (md5 : CStr → Option CStr) (dict : List CStr) : State :=
  whileLoop hashes hashes.length md5 dict (initState hashes.length)

/-- The same run with the test of line 145 removed. -/
def runNoBreak (hashes : List CStr) (md5 : CStr → Option CStr) (dict : List CStr) : State :=
  whileLoopNoBreak hashes hashes.length md5 dict (initState hashes.length)

/-! ## `main` (lines 74-158) -/

/-- The text written by `printf("%s %s\n", hashes[i], word)`. -/
def matchLine (e : Event) : CStr :=
  e.digest ++ [' '] ++ e.word ++ ['\n']

/-- The text written by `printf("%d hashes cracked!\n", cracked_count)`. -/
def summaryLine (cracked_count : Nat) : CStr :=
  (Nat.repr cracked_count).toList ++ " hashes cracked!\n".toList

/-- What a run of the program leaves behind: the texts written to standard
output, one per `printf` call, and the exit status. -/
structure Outcome where
  stdout : List CStr
  status : Nat
  deriving DecidableEq, Repr

/-- The function `main`.  `argv` are the command-line arguments (program name
included), `fopen` gives the lines of the file at a path or `none` when it
cannot be opened. -/
def main (a : Allocator) (fopen : CStr → Option (List CStr)) (md5 : CStr → Option CStr)
    (argv : List CStr) : Outcome :=
  if argv.length ≠ 3 then { stdout := [], status := 1 }
  else
    let hashfile := argv.getD 1 []
    let dictfile := argv.getD 2 []
    match load_hashes a (fopen hashfile) with
    | (none, _) => { stdout := [], status := 1 }
    | (some hashes, hash_count) =>
      if a.callocFlags then
        match fopen dictfile with
        | none => { stdout := [], status := 1 }
        | some dict =>
          let st := whileLoop hashes hash_count md5 dict (initState hash_count)
          { stdout := st.events.map matchLine ++ [summaryLine st.cracked_count], status := 0 }
      else { stdout := [], status := 1 }

/-! ## Specification-side definitions and invariants -/

/-- The indices below `k`, ascending, at which the `for` loop body fires from
the flags `cracked`: entry not yet cracked and stored digest equal to `digest`. -/
def hitsUpTo (hashes : List CStr) (cracked : List Bool) (digest : CStr) (k : Nat) : List Nat :=
  (List.range k).filter (fun i => !(cracked.getD i false) && decide (digest = hashes.getD i []))

/-- The flags have one cell per target and the counter counts the set flags. -/
def Wf (n : Nat) (st : State) : Prop :=
  st.cracked.length = n ∧ st.cracked_count = st.cracked.count true

/-- The facts that hold of every state of the matching loop. -/
structure Good (hashes : List CStr) (md5 : CStr → Option CStr) (st : State) : Prop where
  wf : Wf hashes.length st
  evlen : st.cracked_count = st.events.length
  nodup : (st.events.map Event.idx).Nodup
  ev : ∀ e ∈ st.events, e.idx < hashes.length ∧ st.cracked.getD e.idx false = true ∧
    e.digest = hashes.getD e.idx [] ∧ md5 e.word = some e.digest ∧
    e.word ∈ st.calls.map Prod.fst

/-- The part of a state that the program itself holds or has printed: the
flags, the counter and the match lines. -/
def State.core (st : State) : List Bool × Nat × List Event :=
  (st.cracked, st.cracked_count, st.events)

/-- The lines of the dictionary up to and including the first one that is
non-empty after trimming and whose digest is computed; the whole dictionary
when there is no such line. -/
def uptoFirstDigest (md5 : CStr → Option CStr) : List CStr → List CStr
  | [] => []
  | line :: rest =>
    if trim line = [] then line :: uptoFirstDigest md5 rest
    else
      match md5 (trim line) with
      | none => line :: uptoFirstDigest md5 rest
      | some _ => [line]

/-- The candidate words among `ws` whose digest is computed, each paired with
its digest. -/
def digested (md5 : CStr → Option CStr) (ws : List CStr) : List (CStr × CStr) :=
  ws.filterMap (fun w => (md5 w).map (fun d => (w, d)))

/-- The match events in discovery order, written from the words of the
specification: for each processed word `w` with digest `d`, in order, the
events `(targets[i], w)` for the ascending indices `i` with `targets[i] = d`
whose entry is still uncracked, that is, whose digest is not among the digests
`seen` of the words processed before. -/
def discovery (hashes : List CStr) : List CStr → List (CStr × CStr) → List Event
  | _, [] => []
  | seen, (w, d) :: rest =>
    ((List.range hashes.length).filter
        (fun i => decide (hashes.getD i [] = d) && !decide (hashes.getD i [] ∈ seen))).map
      (fun i => { idx := i, digest := hashes.getD i [], word := w })
    ++ discovery hashes (d :: seen) rest

/-- The candidate words of a dictionary: its lines trimmed, the empty ones dropped. -/
def candidates (dict : List CStr) : List CStr :=
  (dict.map trim).filter (fun w => w ≠ [])

/-- Whether a character is one of the two line-ending characters. -/
def isLineEnd (c : Char) : Bool := c == '\n' || c == '\r'

/-- Stripping all trailing `'\n'` and `'\r'` characters, written from the words
of the specification. -/
def stripTrailing (line : CStr) : CStr :=
  line.rdropWhile isLineEnd

/-- The target list that the specification describes: every line stripped, the
lines that become empty dropped, order and repetitions kept. -/
def loadSpec (lines : List CStr) : List CStr :=
  (lines.map stripTrailing).filter (fun s => s ≠ [])

/-- A digest function for the concrete instances: `"a"` and `"b"` have the
digests `"x"` and `"y"`, the digest of `"c"` fails, every other word has `"z"`. -/
def sampleDigest : CStr → Option CStr := fun w =>
  if w = ['a'] then some ['x']
  else if w = ['b'] then some ['y']
  else if w = ['c'] then none
  else some ['z']

/-- Whether a character is a whitespace character: space, tab, CR or LF. -/
def isWhitespace (c : Char) : Bool :=
  c == ' ' || c == '\t' || c == '\r' || c == '\n'

/-- Whether a string begins or ends with a whitespace character. -/
def hasOuterWhitespace (e : CStr) : Bool :=
  (e.head?.map isWhitespace).getD false || (e.getLast?.map isWhitespace).getD false

/-- Whether a string ends in `'\n'` or `'\r'`. -/
def endsInLineEnd (s : CStr) : Bool :=
  (s.getLast?.map isLineEnd).getD false

/-- Everything in a state except the log of the lines read: the flags, the
counter, the match lines and the log of the `md5` calls. -/
def State.hashed (st : State) : List Bool × Nat × List Event × List (CStr × Nat) :=
  (st.cracked, st.cracked_count, st.events, st.calls)

/-- The MD5 digest of `"hello"` in hexadecimal. -/
def helloDigest : CStr := "5d41402abc4b2a76b9719d911017c592".toList

/-- A digest function for the scenario with the word `"hello"`: it maps
`"hello"` to `helloDigest`, fails on `"foo"` and maps every other word to `"z"`. -/
def scenarioDigest : CStr → Option CStr := fun w =>
  if w = "hello".toList then some helloDigest
  else if w = "foo".toList then none
  else some ['z']

/-- A file system for the concrete instances: the path `"h"` holds the hash
file with the single line `helloDigest`, the path `"d"` the dictionary `foo`,
`hello`, `bar`, the path `"e"` a file with one blank line; no other path opens. -/
def sampleFiles : CStr → Option (List CStr) := fun p =>
  if p = ['h'] then some [helloDigest ++ ['\n']]
  else if p = ['d'] then some ["foo\n".toList, "hello\r\n".toList, "bar".toList]
  else if p = ['e'] then some [['\n']]
  else none

/-- Whether some candidate word of the dictionary (a line that is non-empty
after trimming) has a digest that is computed and equals `h`. -/
def crackable (md5 : CStr → Option CStr) (dict : List CStr) (h : CStr) : Bool :=
  (candidates dict).any (fun w => decide (md5 w = some h))

/-- The number of lines that `load_hashes` can store before `cap *= 2`
overflows: `2^30`. -/
def MAX_STORED : Nat := 1073741824

/-- The requests that arise while at most `MAX_STORED` lines are stored all
succeed: the first `malloc`, every `realloc` made with a positive `cap`, every
`strdup`.  Nothing is asked of a `realloc` made with a wrapped `cap`. -/
def Allocator.LoadOk (a : Allocator) : Prop :=
  a.mallocList = true ∧ (∀ c : Int, 0 < c → a.reallocList c = true) ∧
    (∀ n, a.strdupLine n = true)

/-- An allocator that grants every request except a `realloc` made with a `cap`
that is not positive. -/
def Allocator.bounded : Allocator :=
  { mallocList := true, reallocList := fun c => decide (0 < c),
    strdupLine := fun _ => true, callocFlags := true }

/-! ## Lemmas -/

theorem forLoopUpTo_succ (hashes : List CStr) (d w : CStr) (k : Nat) (st : State) :
    forLoopUpTo hashes d w (k + 1) st = scanStep hashes d w (forLoopUpTo hashes d w k st) k := by
  simp [forLoopUpTo, List.range_succ, List.foldl_append]

theorem hitsUpTo_succ (hashes : List CStr) (cracked : List Bool) (d : CStr) (k : Nat) :
    hitsUpTo hashes cracked d (k + 1) =
      hitsUpTo hashes cracked d k ++
        (if cracked.getD k false = false ∧ d = hashes.getD k [] then [k] else []) := by
  simp only [hitsUpTo, List.range_succ, List.filter_append]
  congr 1
  by_cases h1 : cracked.getD k false = false <;> by_cases h2 : d = hashes.getD k [] <;>
    simp only [List.filter, h1, h2] <;> simp

theorem lt_succ_flag (j k : Nat) (hj : j ≠ k) : decide (j < k + 1) = decide (j < k) := by
  by_cases h : j < k
  · simp [h, Nat.lt_succ_of_lt h]
  · have : ¬ j < k + 1 := by omega
    simp [h, this]

theorem forLoopUpTo_spec (hashes : List CStr) (d w : CStr) (st : State) :
    ∀ k, k ≤ st.cracked.length →
      (forLoopUpTo hashes d w k st).cracked.length = st.cracked.length ∧
      (∀ j, (forLoopUpTo hashes d w k st).cracked.getD j false =
        (st.cracked.getD j false || (decide (j < k) && decide (d = hashes.getD j [])))) ∧
      (forLoopUpTo hashes d w k st).events =
        st.events ++ (hitsUpTo hashes st.cracked d k).map
          (fun i => { idx := i, digest := hashes.getD i [], word := w }) ∧
      (forLoopUpTo hashes d w k st).cracked_count =
        st.cracked_count + (hitsUpTo hashes st.cracked d k).length ∧
      (forLoopUpTo hashes d w k st).calls = st.calls ∧
      (forLoopUpTo hashes d w k st).reads = st.reads := by
  intro k
  induction k with
  | zero => intro _; simp [forLoopUpTo, hitsUpTo]
  | succ k ih =>
    intro hk
    obtain ⟨hlen, hget, hev, hcnt, hcalls, hreads⟩ := ih (by omega)
    rw [forLoopUpTo_succ, hitsUpTo_succ]
    have hk0 : (forLoopUpTo hashes d w k st).cracked.getD k false = st.cracked.getD k false := by
      rw [hget k]; simp
    unfold scanStep
    by_cases h1 : st.cracked.getD k false = true
    · rw [if_pos (by rw [hk0]; exact h1)]
      refine ⟨hlen, ?_, ?_, ?_, hcalls, hreads⟩
      · intro j
        rw [hget j]
        by_cases hj : j = k
        · subst hj; rw [h1]; simp
        · rw [lt_succ_flag j k hj]
      · rw [hev, if_neg (by rw [h1]; simp), List.append_nil]
      · rw [hcnt, if_neg (by rw [h1]; simp), List.append_nil]
    · rw [if_neg (by rw [hk0]; exact h1)]
      have h1f : st.cracked.getD k false = false := by simpa using h1
      by_cases h2 : d = hashes.getD k []
      · rw [if_pos h2, if_pos ⟨h1f, h2⟩]
        refine ⟨by simp [hlen], ?_, ?_, ?_, hcalls, hreads⟩
        · intro j
          by_cases hj : j = k
          · subst hj
            have hlt : j < (forLoopUpTo hashes d w j st).cracked.length := by omega
            rw [← h2, h1f]
            simp [List.getD_eq_getElem?_getD, List.getElem?_set, hlt]
          · have hne : k ≠ j := fun h => hj h.symm
            rw [lt_succ_flag j k hj, ← hget j]
            simp only [List.getD_eq_getElem?_getD, List.getElem?_set_ne hne]
        · simp only [hev, List.map_append, List.map_cons, List.map_nil, List.append_assoc]
        · simp only [hcnt, List.length_append, List.length_cons, List.length_nil]; omega
      · rw [if_neg h2, if_neg (fun h => h2 h.2), List.append_nil]
        refine ⟨hlen, ?_, hev, hcnt, hcalls, hreads⟩
        intro j
        rw [hget j]
        by_cases hj : j = k
        · subst hj
          have : decide (d = hashes.getD j []) = false := by simpa using h2
          rw [this, h1f]; simp
        · rw [lt_succ_flag j k hj]

theorem mem_hitsUpTo (hashes : List CStr) (cracked : List Bool) (d : CStr) (k i : Nat) :
    i ∈ hitsUpTo hashes cracked d k ↔
      i < k ∧ cracked.getD i false = false ∧ d = hashes.getD i [] := by
  simp [hitsUpTo, List.mem_filter, List.mem_range]

theorem nodup_hitsUpTo (hashes : List CStr) (cracked : List Bool) (d : CStr) (k : Nat) :
    (hitsUpTo hashes cracked d k).Nodup :=
  (List.nodup_range k).filter _

theorem scanStep_wf (hashes : List CStr) (d w : CStr) (n i : Nat) (st : State)
    (hi : i < n) (h : Wf n st) : Wf n (scanStep hashes d w st i) := by
  obtain ⟨hlen, hcnt⟩ := h
  unfold scanStep
  split
  · exact ⟨hlen, hcnt⟩
  · rename_i h1
    split
    · refine ⟨by simp [hlen], ?_⟩
      have hlt : i < st.cracked.length := by omega
      have hfalse : st.cracked[i] = false := by
        have : st.cracked.getD i false = st.cracked[i] := by
          simp [List.getD_eq_getElem?_getD, List.getElem?_eq_getElem hlt]
        rw [← this]; simpa using h1
      simp only [List.count_set true true st.cracked i hlt, hfalse, hcnt]
      simp
    · exact ⟨hlen, hcnt⟩

theorem forLoopUpTo_wf (hashes : List CStr) (d w : CStr) (n : Nat) (st : State) (h : Wf n st) :
    ∀ k, k ≤ n → Wf n (forLoopUpTo hashes d w k st) := by
  intro k
  induction k with
  | zero => intro _; simpa [forLoopUpTo] using h
  | succ k ih =>
    intro hk
    rw [forLoopUpTo_succ]
    exact scanStep_wf hashes d w n k _ (by omega) (ih (by omega))

theorem wf_count_le (n : Nat) (st : State) (h : Wf n st) : st.cracked_count ≤ n := by
  obtain ⟨hlen, hcnt⟩ := h
  rw [hcnt, ← hlen]
  exact List.count_le_length _ _

theorem wf_saturated (n : Nat) (st : State) (h : Wf n st) (hfull : st.cracked_count = n) :
    ∀ j, j < n → st.cracked.getD j false = true := by
  obtain ⟨hlen, hcnt⟩ := h
  intro j hj
  have hall : ∀ b ∈ st.cracked, true = b := by
    apply List.count_eq_length.mp
    rw [← hcnt, hfull, hlen]
  have hlt : j < st.cracked.length := by omega
  have : st.cracked[j] ∈ st.cracked := List.getElem_mem hlt
  have := hall _ this
  simp [List.getD_eq_getElem?_getD, List.getElem?_eq_getElem hlt, ← this]

theorem forLoopUpTo_saturated (hashes : List CStr) (d w : CStr) (n : Nat) (st : State)
    (hsat : ∀ j, j < n → st.cracked.getD j false = true) :
    ∀ k, k ≤ n → forLoopUpTo hashes d w k st = st := by
  intro k
  induction k with
  | zero => intro _; simp [forLoopUpTo]
  | succ k ih =>
    intro hk
    rw [forLoopUpTo_succ, ih (by omega)]
    unfold scanStep
    rw [if_pos (hsat k (by omega))]

theorem forLoop_good (hashes : List CStr) (md5 : CStr → Option CStr) (d w : CStr) (st : State)
    (h : Good hashes md5 st) (hd : md5 w = some d) (hw : w ∈ st.calls.map Prod.fst) :
    Good hashes md5 (forLoop hashes hashes.length d w st) := by
  have hlen := h.wf.1
  obtain ⟨_, hget, hev, hcnt, hcalls, _⟩ :=
    forLoopUpTo_spec hashes d w st hashes.length (by omega)
  unfold forLoop
  refine ⟨forLoopUpTo_wf hashes d w _ st h.wf _ (le_refl _), ?_, ?_, ?_⟩
  · rw [hcnt, hev, h.evlen]; simp
  · rw [hev, List.map_append, List.map_map]
    have hid : (Event.idx ∘ fun i => ({ idx := i, digest := hashes.getD i [], word := w } : Event))
        = id := by
      funext i; rfl
    rw [hid, List.map_id]
    refine List.Nodup.append h.nodup (nodup_hitsUpTo _ _ _ _) ?_
    intro i hi1 hi2
    obtain ⟨e, he, rfl⟩ := List.mem_map.mp hi1
    have h1 := (h.ev e he).2.1
    have h2 := ((mem_hitsUpTo _ _ _ _ _).mp hi2).2.1
    rw [h1] at h2
    exact Bool.noConfusion h2
  · intro e he
    rw [hev] at he
    rw [hcalls]
    rcases List.mem_append.mp he with he | he
    · obtain ⟨a, b, c, e1, e2⟩ := h.ev e he
      refine ⟨a, ?_, c, e1, e2⟩
      rw [hget, b]; rfl
    · obtain ⟨i, hi, rfl⟩ := List.mem_map.mp he
      obtain ⟨hi1, _, hi3⟩ := (mem_hitsUpTo _ _ _ _ _).mp hi
      refine ⟨hi1, ?_, rfl, ?_, hw⟩
      · rw [hget]; simp [hi1, hi3]
      · show md5 w = some (hashes.getD i [])
        rw [← hi3]; exact hd

theorem good_init (hashes : List CStr) (md5 : CStr → Option CStr) :
    Good hashes md5 (initState hashes.length) := by
  refine ⟨⟨by simp [initState], ?_⟩, by simp [initState], by simp [initState], ?_⟩
  · simp [initState, List.count_replicate]
  · intro e he; simp [initState] at he

theorem good_read (hashes : List CStr) (md5 : CStr → Option CStr) (st : State)
    (r : List (CStr × Nat)) (h : Good hashes md5 st) :
    Good hashes md5 { st with reads := r } :=
  ⟨h.wf, h.evlen, h.nodup, h.ev⟩

theorem good_call (hashes : List CStr) (md5 : CStr → Option CStr) (st : State)
    (c : CStr × Nat) (h : Good hashes md5 st) :
    Good hashes md5 { st with calls := st.calls ++ [c] } := by
  refine ⟨h.wf, h.evlen, h.nodup, ?_⟩
  intro e he
  obtain ⟨a, b, c1, d1, e1⟩ := h.ev e he
  refine ⟨a, b, c1, d1, ?_⟩
  simp only [List.map_append, List.mem_append]
  exact Or.inl e1

theorem whileLoop_good (hashes : List CStr) (md5 : CStr → Option CStr) (dict : List CStr) :
    ∀ st, Good hashes md5 st → Good hashes md5 (whileLoop hashes hashes.length md5 dict st) := by
  induction dict with
  | nil => intro st h; simpa [whileLoop] using h
  | cons line rest ih =>
    intro st h
    simp only [whileLoop]
    split
    · exact ih _ (good_read _ _ _ _ h)
    · have h2 := good_call hashes md5 _ (trim line, st.cracked_count)
        (good_read hashes md5 st (st.reads ++ [(line, st.cracked_count)]) h)
      split
      · exact ih _ h2
      · rename_i digest hd
        have h3 := forLoop_good hashes md5 digest (trim line) _ h2 hd (by simp)
        split
        · exact h3
        · exact ih _ h3

theorem whileLoopNoBreak_saturated (hashes : List CStr) (n : Nat) (md5 : CStr → Option CStr)
    (dict : List CStr) :
    ∀ st, Wf n st → st.cracked_count = n →
      (whileLoopNoBreak hashes n md5 dict st).core = st.core := by
  induction dict with
  | nil => intro st _ _; simp [whileLoopNoBreak]
  | cons line rest ih =>
    intro st h hfull
    simp only [whileLoopNoBreak]
    split
    · exact ih { st with reads := st.reads ++ [(line, st.cracked_count)] } h hfull
    · split
      · exact ih { st with reads := st.reads ++ [(line, st.cracked_count)],
                           calls := st.calls ++ [(trim line, st.cracked_count)] } h hfull
      · rename_i digest _
        unfold forLoop
        rw [forLoopUpTo_saturated hashes digest (trim line) n
          { st with reads := st.reads ++ [(line, st.cracked_count)],
                    calls := st.calls ++ [(trim line, st.cracked_count)] }
          (wf_saturated n st h hfull) n (le_refl _)]
        exact ih { st with reads := st.reads ++ [(line, st.cracked_count)],
                           calls := st.calls ++ [(trim line, st.cracked_count)] } h hfull

theorem whileLoop_core_eq (hashes : List CStr) (n : Nat) (md5 : CStr → Option CStr)
    (dict : List CStr) :
    ∀ st, Wf n st →
      (whileLoop hashes n md5 dict st).core = (whileLoopNoBreak hashes n md5 dict st).core := by
  induction dict with
  | nil => intro st _; simp [whileLoop, whileLoopNoBreak]
  | cons line rest ih =>
    intro st h
    simp only [whileLoop, whileLoopNoBreak]
    split
    · exact ih { st with reads := st.reads ++ [(line, st.cracked_count)] } h
    · split
      · exact ih { st with reads := st.reads ++ [(line, st.cracked_count)],
                           calls := st.calls ++ [(trim line, st.cracked_count)] } h
      · rename_i digest _
        have h3 : Wf n (forLoop hashes n digest (trim line)
            { st with reads := st.reads ++ [(line, st.cracked_count)],
                      calls := st.calls ++ [(trim line, st.cracked_count)] }) :=
          forLoopUpTo_wf hashes digest (trim line) n
            { st with reads := st.reads ++ [(line, st.cracked_count)],
                      calls := st.calls ++ [(trim line, st.cracked_count)] } h n (le_refl _)
        split
        · rename_i hfull
          exact (whileLoopNoBreak_saturated hashes n md5 rest _ h3 hfull).symm
        · exact ih _ h3

theorem whileLoopNoBreak_length (hashes : List CStr) (md5 : CStr → Option CStr)
    (dict : List CStr) :
    ∀ st, st.cracked.length = hashes.length →
      (whileLoopNoBreak hashes hashes.length md5 dict st).cracked.length = hashes.length := by
  induction dict with
  | nil => intro st h; simpa [whileLoopNoBreak] using h
  | cons line rest ih =>
    intro st h
    simp only [whileLoopNoBreak]
    split
    · exact ih { st with reads := st.reads ++ [(line, st.cracked_count)] } h
    · split
      · exact ih { st with reads := st.reads ++ [(line, st.cracked_count)],
                           calls := st.calls ++ [(trim line, st.cracked_count)] } h
      · rename_i digest _
        apply ih
        unfold forLoop
        rw [(forLoopUpTo_spec hashes digest (trim line)
          { st with reads := st.reads ++ [(line, st.cracked_count)],
                    calls := st.calls ++ [(trim line, st.cracked_count)] }
          hashes.length (le_of_eq h.symm)).1]
        exact h

theorem whileLoopNoBreak_cracked (hashes : List CStr) (md5 : CStr → Option CStr)
    (dict : List CStr) (j : Nat) (hj : j < hashes.length) :
    ∀ st, st.cracked.length = hashes.length →
      ((whileLoopNoBreak hashes hashes.length md5 dict st).cracked.getD j false = true ↔
        st.cracked.getD j false = true ∨
          ∃ line ∈ dict, trim line ≠ [] ∧ md5 (trim line) = some (hashes.getD j [])) := by
  induction dict with
  | nil => intro st _; simp [whileLoopNoBreak]
  | cons line rest ih =>
    intro st h
    simp only [whileLoopNoBreak]
    split
    · rename_i hempty
      rw [ih { st with reads := st.reads ++ [(line, st.cracked_count)] } h]
      simp [hempty]
    · rename_i hne
      split
      · rename_i hnone
        rw [ih { st with reads := st.reads ++ [(line, st.cracked_count)],
                         calls := st.calls ++ [(trim line, st.cracked_count)] } h]
        simp [hnone]
      · rename_i digest hd
        obtain ⟨hlen, hget, _⟩ := forLoopUpTo_spec hashes digest (trim line)
          { st with reads := st.reads ++ [(line, st.cracked_count)],
                    calls := st.calls ++ [(trim line, st.cracked_count)] }
          hashes.length (le_of_eq h.symm)
        rw [ih _ (by unfold forLoop; rw [hlen]; exact h)]
        unfold forLoop
        rw [hget j]
        simp only [List.mem_cons, exists_eq_or_imp, hd, Option.some.injEq, Bool.or_eq_true,
          Bool.and_eq_true, decide_eq_true_eq]
        constructor
        · rintro ((h1 | ⟨_, h2⟩) | h3)
          · exact Or.inl h1
          · exact Or.inr (Or.inl ⟨hne, h2⟩)
          · exact Or.inr (Or.inr h3)
        · rintro (h1 | ⟨_, h2⟩ | h3)
          · exact Or.inl (Or.inl h1)
          · exact Or.inl (Or.inr ⟨hj, h2⟩)
          · exact Or.inr h3

theorem whileLoop_log (hashes : List CStr) (n : Nat) (md5 : CStr → Option CStr)
    (dict : List CStr) :
    ∀ st, Wf n st → st.cracked_count < n →
      (∀ c ∈ st.calls, c.2 < n) → (∀ r ∈ st.reads, r.2 < n) →
      (∀ c ∈ (whileLoop hashes n md5 dict st).calls, c.2 < n) ∧
      (∀ r ∈ (whileLoop hashes n md5 dict st).reads, r.2 < n) := by
  induction dict with
  | nil => intro st _ _ hc hr; exact ⟨hc, hr⟩
  | cons line rest ih =>
    intro st h hlt hc hr
    have hr1 : ∀ r ∈ st.reads ++ [(line, st.cracked_count)], r.2 < n := by
      intro r hmem
      rcases List.mem_append.mp hmem with hmem | hmem
      · exact hr r hmem
      · rw [List.mem_singleton.mp hmem]; exact hlt
    have hc1 : ∀ c ∈ st.calls ++ [(trim line, st.cracked_count)], c.2 < n := by
      intro c hmem
      rcases List.mem_append.mp hmem with hmem | hmem
      · exact hc c hmem
      · rw [List.mem_singleton.mp hmem]; exact hlt
    simp only [whileLoop]
    split
    · exact ih { st with reads := st.reads ++ [(line, st.cracked_count)] } h hlt hc hr1
    · split
      · exact ih { st with reads := st.reads ++ [(line, st.cracked_count)],
                           calls := st.calls ++ [(trim line, st.cracked_count)] } h hlt hc1 hr1
      · rename_i digest _
        obtain ⟨_, _, _, _, hcalls, hreads⟩ := forLoopUpTo_spec hashes digest (trim line)
          { st with reads := st.reads ++ [(line, st.cracked_count)],
                    calls := st.calls ++ [(trim line, st.cracked_count)] }
          n (le_of_eq h.1.symm)
        have h3 : Wf n (forLoop hashes n digest (trim line)
            { st with reads := st.reads ++ [(line, st.cracked_count)],
                      calls := st.calls ++ [(trim line, st.cracked_count)] }) :=
          forLoopUpTo_wf hashes digest (trim line) n
            { st with reads := st.reads ++ [(line, st.cracked_count)],
                      calls := st.calls ++ [(trim line, st.cracked_count)] } h n (le_refl _)
        have hc3 : ∀ c ∈ (forLoop hashes n digest (trim line)
            { st with reads := st.reads ++ [(line, st.cracked_count)],
                      calls := st.calls ++ [(trim line, st.cracked_count)] }).calls, c.2 < n := by
          unfold forLoop; rw [hcalls]; exact hc1
        have hr3 : ∀ r ∈ (forLoop hashes n digest (trim line)
            { st with reads := st.reads ++ [(line, st.cracked_count)],
                      calls := st.calls ++ [(trim line, st.cracked_count)] }).reads, r.2 < n := by
          unfold forLoop; rw [hreads]; exact hr1
        split
        · exact ⟨hc3, hr3⟩
        · rename_i hne
          have := wf_count_le n _ h3
          exact ih _ h3 (by omega) hc3 hr3

theorem whileLoop_empty (md5 : CStr → Option CStr) (dict : List CStr) :
    ∀ st, st.cracked_count = 0 →
      (whileLoop [] 0 md5 dict st).events = st.events ∧
      (whileLoop [] 0 md5 dict st).cracked_count = 0 ∧
      (whileLoop [] 0 md5 dict st).cracked = st.cracked ∧
      (whileLoop [] 0 md5 dict st).reads.map Prod.fst =
        st.reads.map Prod.fst ++ uptoFirstDigest md5 dict ∧
      (whileLoop [] 0 md5 dict st).calls.map Prod.fst =
        st.calls.map Prod.fst ++ ((uptoFirstDigest md5 dict).map trim).filter (fun w => w ≠ []) := by
  induction dict with
  | nil => intro st h; simp [whileLoop, uptoFirstDigest, h]
  | cons line rest ih =>
    intro st h
    simp only [whileLoop, uptoFirstDigest]
    split
    · rename_i hempty
      obtain ⟨a, b, c, d, e⟩ := ih { st with reads := st.reads ++ [(line, st.cracked_count)] } h
      refine ⟨a, b, c, ?_, ?_⟩
      · rw [d]; simp
      · rw [e]; simp [hempty]
    · rename_i hne
      split
      · have hrec := ih { st with reads := st.reads ++ [(line, st.cracked_count)],
                                  calls := st.calls ++ [(trim line, st.cracked_count)] } h
        obtain ⟨a, b, c, d, e⟩ := hrec
        refine ⟨a, b, c, ?_, ?_⟩
        · rw [d]; simp
        · rw [e]; simp [hne]
      · simp [forLoop, forLoopUpTo, h, hne]

theorem hits_eq_discovery_filter (hashes : List CStr) (cracked : List Bool) (seen : List CStr)
    (d : CStr)
    (hseen : ∀ j, j < hashes.length → (cracked.getD j false = true ↔ hashes.getD j [] ∈ seen)) :
    hitsUpTo hashes cracked d hashes.length =
      (List.range hashes.length).filter
        (fun i => decide (hashes.getD i [] = d) && !decide (hashes.getD i [] ∈ seen)) := by
  unfold hitsUpTo
  apply List.filter_congr
  intro i hi
  have hi := List.mem_range.mp hi
  have := hseen i hi
  by_cases h1 : cracked.getD i false = true
  · have h2 := this.mp h1
    rw [h1, decide_eq_true h2]; simp
  · have h2 : hashes.getD i [] ∉ seen := fun h => h1 (this.mpr h)
    have h1f : cracked.getD i false = false := by simpa using h1
    rw [h1f, decide_eq_false h2]
    by_cases h3 : d = hashes.getD i []
    · rw [decide_eq_true h3, decide_eq_true h3.symm]; rfl
    · have h4 : ¬ hashes.getD i [] = d := fun h => h3 h.symm
      rw [decide_eq_false h3, decide_eq_false h4]; rfl

theorem whileLoop_discovery (hashes : List CStr) (md5 : CStr → Option CStr) (dict : List CStr) :
    ∀ st seen, st.cracked.length = hashes.length →
      (∀ j, j < hashes.length → (st.cracked.getD j false = true ↔ hashes.getD j [] ∈ seen)) →
      ∃ new, (whileLoop hashes hashes.length md5 dict st).calls = st.calls ++ new ∧
        (whileLoop hashes hashes.length md5 dict st).events =
          st.events ++ discovery hashes seen (digested md5 (new.map Prod.fst)) ∧
        new.map Prod.fst <+: candidates dict := by
  induction dict with
  | nil =>
    intro st seen _ _
    exact ⟨[], by simp [whileLoop], by simp [whileLoop, digested, discovery], by simp⟩
  | cons line rest ih =>
    intro st seen hlen hseen
    simp only [whileLoop]
    split
    · rename_i hempty
      obtain ⟨new, h1, h2, h3⟩ :=
        ih { st with reads := st.reads ++ [(line, st.cracked_count)] } seen hlen hseen
      refine ⟨new, h1, h2, ?_⟩
      simpa [candidates, hempty] using h3
    · rename_i hne
      split
      · rename_i hnone
        have hrec := ih { st with reads := st.reads ++ [(line, st.cracked_count)],
                                  calls := st.calls ++ [(trim line, st.cracked_count)] }
          seen hlen hseen
        obtain ⟨new, h1, h2, h3⟩ := hrec
        refine ⟨(trim line, st.cracked_count) :: new, ?_, ?_, ?_⟩
        · rw [h1]; simp
        · rw [h2]; simp [digested, hnone]
        · simp only [candidates, List.map_cons, List.filter_cons, hne, not_false_eq_true,
            decide_True, if_true, ne_eq]
          exact (List.prefix_cons_inj _).mpr h3
      · rename_i digest hd
        obtain ⟨hlen3, hget, hev, _, hcalls, _⟩ := forLoopUpTo_spec hashes digest (trim line)
          { st with reads := st.reads ++ [(line, st.cracked_count)],
                    calls := st.calls ++ [(trim line, st.cracked_count)] }
          hashes.length (le_of_eq hlen.symm)
        have hhits := hits_eq_discovery_filter hashes st.cracked seen digest hseen
        have hdig : ∀ l : List CStr, digested md5 (trim line :: l) =
            (trim line, digest) :: digested md5 l := by
          intro l; simp [digested, hd]
        split
        · refine ⟨[(trim line, st.cracked_count)], ?_, ?_, ?_⟩
          · unfold forLoop; rw [hcalls]
          · unfold forLoop
            rw [hev]
            simp only [List.map_cons, List.map_nil, hdig, discovery, List.append_nil]
            rw [← hhits]
          · simp only [candidates, List.map_cons, List.filter_cons, hne, not_false_eq_true,
              decide_True, if_true, ne_eq, List.map_nil]
            exact (List.prefix_cons_inj _).mpr List.nil_prefix
        · have hseen3 : ∀ j, j < hashes.length →
              ((forLoop hashes hashes.length digest (trim line)
                { st with reads := st.reads ++ [(line, st.cracked_count)],
                          calls := st.calls ++ [(trim line, st.cracked_count)] }).cracked.getD j
                  false = true ↔ hashes.getD j [] ∈ digest :: seen) := by
            intro j hj
            unfold forLoop
            rw [hget j]
            have := hseen j hj
            simp only [Bool.or_eq_true, Bool.and_eq_true, decide_eq_true_eq, List.mem_cons]
            constructor
            · rintro (h1 | ⟨_, h2⟩)
              · exact Or.inr (this.mp h1)
              · exact Or.inl h2.symm
            · rintro (h1 | h2)
              · exact Or.inr ⟨hj, h1.symm⟩
              · exact Or.inl (this.mpr h2)
          have hrec := ih _ (digest :: seen) (by unfold forLoop; rw [hlen3]; exact hlen) hseen3
          obtain ⟨new, h1, h2, h3⟩ := hrec
          refine ⟨(trim line, st.cracked_count) :: new, ?_, ?_, ?_⟩
          · rw [h1]; unfold forLoop; rw [hcalls]; simp
          · rw [h2]; unfold forLoop; rw [hev]
            simp only [List.map_cons, hdig, discovery, List.append_assoc]
            rw [← hhits]
          · simp only [candidates, List.map_cons, List.filter_cons, hne, not_false_eq_true,
              decide_True, if_true, ne_eq]
            exact (List.prefix_cons_inj _).mpr h3

theorem good_count_le_distinct (hashes : List CStr) (md5 : CStr → Option CStr) (st : State)
    (h : Good hashes md5 st) (hnd : hashes.Nodup) :
    st.cracked_count ≤ ((st.calls.map Prod.fst).dedup).length := by
  have hdig : (st.events.map Event.digest).Nodup := by
    refine List.Nodup.map_on ?_ (List.Nodup.of_map Event.idx h.nodup)
    intro x hx y hy hxy
    apply List.inj_on_of_nodup_map h.nodup hx hy
    obtain ⟨hx1, _, hx3, _⟩ := h.ev x hx
    obtain ⟨hy1, _, hy3, _⟩ := h.ev y hy
    rw [hx3, hy3] at hxy
    have hxe : hashes.getD x.idx [] = hashes[x.idx] := by
      simp [List.getD_eq_getElem?_getD, List.getElem?_eq_getElem hx1]
    have hye : hashes.getD y.idx [] = hashes[y.idx] := by
      simp [List.getD_eq_getElem?_getD, List.getElem?_eq_getElem hy1]
    rw [hxe, hye] at hxy
    exact (hnd.getElem_inj_iff).mp hxy
  have hsub : st.events.map Event.digest ⊆ ((st.calls.map Prod.fst).dedup).filterMap md5 := by
    intro d hd
    obtain ⟨e, he, rfl⟩ := List.mem_map.mp hd
    obtain ⟨_, _, _, h4, h5⟩ := h.ev e he
    exact List.mem_filterMap.mpr ⟨e.word, List.mem_dedup.mpr h5, h4⟩
  calc st.cracked_count = (st.events.map Event.digest).length := by rw [h.evlen]; simp
    _ ≤ (((st.calls.map Prod.fst).dedup).filterMap md5).length :=
        (List.subperm_of_subset hdig hsub).length_le
    _ ≤ ((st.calls.map Prod.fst).dedup).length := List.length_filterMap_le _ _

theorem take_trimLen (s : CStr) :
    ∀ len, len ≤ s.length →
      s.take (trimLen s len) = (s.take len).rdropWhile isLineEnd := by
  intro len
  induction len with
  | zero => intro _; simp [trimLen]
  | succ len ih =>
    intro hlen
    have hlt : len < s.length := by omega
    have hget : s.getD len '\x00' = s[len] := by
      simp [List.getD_eq_getElem?_getD, List.getElem?_eq_getElem hlt]
    have htake : s.take (len + 1) = s.take len ++ [s[len]] := by
      rw [List.take_succ, List.getElem?_eq_getElem hlt]; rfl
    unfold trimLen
    rw [hget]
    by_cases hc : s[len] = '\n' ∨ s[len] = '\r'
    · rw [if_pos hc, ih (by omega), htake,
        List.rdropWhile_concat_pos isLineEnd _ _ (by simpa [isLineEnd] using hc)]
    · rw [if_neg hc, htake,
        List.rdropWhile_concat_neg isLineEnd _ _ (by simpa [isLineEnd] using hc)]

theorem trim_eq_stripTrailing (s : CStr) : trim s = stripTrailing s := by
  unfold trim stripTrailing
  rw [take_trimLen s s.length (le_refl _), List.take_length]

theorem load_loop_ok (a : Allocator) (hmem : a.AllOk) (lines : List CStr) :
    ∀ cap list n, load_loop a lines cap list n =
      some (list ++ loadSpec lines, n + (loadSpec lines).length) := by
  obtain ⟨_, hre, hdup, _⟩ := hmem
  induction lines with
  | nil => intro cap list n; simp [load_loop, loadSpec]
  | cons line rest ih =>
    intro cap list n
    have hcons : loadSpec (line :: rest) =
        if trim line = [] then loadSpec rest else trim line :: loadSpec rest := by
      simp only [loadSpec, List.map_cons, List.filter_cons, ← trim_eq_stripTrailing]
      by_cases h : trim line = [] <;> simp [h]
    simp only [load_loop, hre, hdup, if_true]
    rw [hcons]
    by_cases h : trim line = []
    · simp only [h, if_true]; exact ih cap list n
    · simp only [h, if_false]
      split
      · rw [ih]; simp; omega
      · rw [ih]; simp; omega

theorem load_loop_count (a : Allocator) (lines : List CStr) :
    ∀ cap list n l2 n2, load_loop a lines cap list n = some (l2, n2) →
      n = list.length → n2 = l2.length := by
  induction lines with
  | nil =>
    intro cap list n l2 n2 h hn
    simp only [load_loop, Option.some.injEq, Prod.mk.injEq] at h
    rw [← h.1, ← h.2]; exact hn
  | cons line rest ih =>
    intro cap list n l2 n2 h hn
    simp only [load_loop] at h
    split at h
    · exact ih _ _ _ _ _ h hn
    · split at h
      · split at h
        · split at h
          · exact ih _ _ _ _ _ h (by simp [hn])
          · exact Option.noConfusion h
        · exact Option.noConfusion h
      · split at h
        · exact ih _ _ _ _ _ h (by simp [hn])
        · exact Option.noConfusion h

theorem load_hashes_count (a : Allocator) (file : Option (List CStr)) (hashes : List CStr)
    (n : Nat) (h : load_hashes a file = (some hashes, n)) : n = hashes.length := by
  unfold load_hashes at h
  split at h
  · simp at h
  · split at h
    · split at h
      · rename_i l2 n2 hl
        simp only [Prod.mk.injEq, Option.some.injEq] at h
        rw [← h.1, ← h.2]
        exact load_loop_count a _ _ _ _ _ _ hl rfl
      · simp at h
    · simp at h

theorem main_eq_run (a : Allocator) (fopen : CStr → Option (List CStr))
    (md5 : CStr → Option CStr) (argv hashes dict : List CStr) (n : Nat)
    (hargs : argv.length = 3)
    (hload : load_hashes a (fopen (argv.getD 1 [])) = (some hashes, n))
    (hflags : a.callocFlags = true)
    (hdict : fopen (argv.getD 2 []) = some dict) :
    main a fopen md5 argv =
      { stdout := (run hashes md5 dict).events.map matchLine ++
          [summaryLine (run hashes md5 dict).cracked_count],
        status := 0 } := by
  have hn := load_hashes_count a _ hashes n hload
  subst hn
  simp only [main, hargs, hload, hflags, hdict, run]
  simp

theorem endsInLineEnd_trim (s : CStr) : endsInLineEnd (trim s) = false := by
  rw [trim_eq_stripTrailing]
  unfold stripTrailing endsInLineEnd
  by_cases hl : s.rdropWhile isLineEnd = []
  · rw [hl]; rfl
  · rw [List.getLast?_eq_getLast _ hl]
    have := List.rdropWhile_last_not isLineEnd s hl
    simpa using this

theorem trim_of_not_endsInLineEnd (s : CStr) (h : endsInLineEnd s = false) : trim s = s := by
  rw [trim_eq_stripTrailing]
  unfold stripTrailing
  rw [List.rdropWhile_eq_self_iff]
  intro hl
  unfold endsInLineEnd at h
  rw [List.getLast?_eq_getLast _ hl] at h
  simpa using h

theorem trim_idem (s : CStr) : trim (trim s) = trim s :=
  trim_of_not_endsInLineEnd _ (endsInLineEnd_trim s)

theorem trim_append_lf (s : CStr) : trim (s ++ ['\n']) = trim s := by
  rw [trim_eq_stripTrailing, trim_eq_stripTrailing]
  unfold stripTrailing
  exact List.rdropWhile_concat_pos isLineEnd s '\n' (by decide)

theorem trim_append_cr (s : CStr) : trim (s ++ ['\r']) = trim s := by
  rw [trim_eq_stripTrailing, trim_eq_stripTrailing]
  unfold stripTrailing
  exact List.rdropWhile_concat_pos isLineEnd s '\r' (by decide)

theorem trim_append_crlf (s : CStr) : trim (s ++ ['\r', '\n']) = trim s := by
  have : s ++ ['\r', '\n'] = (s ++ ['\r']) ++ ['\n'] := by simp
  rw [this, trim_append_lf, trim_append_cr]

theorem trim_eq_nil_iff (s : CStr) : trim s = [] ↔ ∀ c ∈ s, isLineEnd c = true := by
  rw [trim_eq_stripTrailing]
  unfold stripTrailing
  exact List.rdropWhile_eq_nil_iff

theorem loadSpec_eq_candidates (lines : List CStr) : loadSpec lines = candidates lines := by
  unfold loadSpec candidates
  congr 1
  apply List.map_congr_left
  intro s _
  exact (trim_eq_stripTrailing s).symm

theorem candidates_cons (line : CStr) (rest : List CStr) :
    candidates (line :: rest) =
      if trim line = [] then candidates rest else trim line :: candidates rest := by
  unfold candidates
  by_cases h : trim line = [] <;> simp [h]

theorem candidates_append (l1 l2 : List CStr) :
    candidates (l1 ++ l2) = candidates l1 ++ candidates l2 := by
  simp [candidates]

theorem candidates_blank (pre post : List CStr) (blank : CStr) (h : trim blank = []) :
    candidates (pre ++ blank :: post) = candidates (pre ++ post) := by
  rw [candidates_append, candidates_append, candidates_cons, if_pos h]

theorem mem_candidates (dict : List CStr) (w : CStr) :
    w ∈ candidates dict ↔ ∃ line ∈ dict, trim line ≠ [] ∧ trim line = w := by
  unfold candidates
  simp only [List.mem_filter, List.mem_map, decide_eq_true_eq]
  constructor
  · rintro ⟨⟨line, hl, rfl⟩, hne⟩
    exact ⟨line, hl, hne, rfl⟩
  · rintro ⟨line, hl, hne, rfl⟩
    exact ⟨⟨line, hl, rfl⟩, hne⟩

theorem load_loop_candidates (a : Allocator) (lines : List CStr) :
    ∀ cap list n, load_loop a lines cap list n = load_loop a (candidates lines) cap list n := by
  induction lines with
  | nil => intro cap list n; rfl
  | cons line rest ih =>
    intro cap list n
    rw [candidates_cons]
    by_cases h : trim line = []
    · rw [if_pos h]
      simp only [load_loop, h, if_true]
      exact ih cap list n
    · rw [if_neg h]
      simp only [load_loop, h, if_false, trim_idem]
      split
      · split
        · split
          · exact ih _ _ _
          · rfl
        · rfl
      · split
        · exact ih _ _ _
        · rfl

theorem load_hashes_candidates (a : Allocator) (lines lines2 : List CStr)
    (h : candidates lines = candidates lines2) :
    load_hashes a (some lines) = load_hashes a (some lines2) := by
  simp only [load_hashes]
  rw [load_loop_candidates a lines, load_loop_candidates a lines2, h]

theorem load_loop_result (a : Allocator) (lines : List CStr) :
    ∀ cap list n l2 n2, load_loop a lines cap list n = some (l2, n2) →
      l2 = list ++ candidates lines := by
  induction lines with
  | nil =>
    intro cap list n l2 n2 h
    simp only [load_loop, Option.some.injEq, Prod.mk.injEq] at h
    simp [candidates, h.1]
  | cons line rest ih =>
    intro cap list n l2 n2 h
    rw [candidates_cons]
    simp only [load_loop] at h
    split at h
    · rename_i hb
      rw [if_pos hb]
      exact ih _ _ _ _ _ h
    · rename_i hb
      rw [if_neg hb]
      split at h
      · split at h
        · split at h
          · rw [ih _ _ _ _ _ h]; simp
          · exact Option.noConfusion h
        · exact Option.noConfusion h
      · split at h
        · rw [ih _ _ _ _ _ h]; simp
        · exact Option.noConfusion h

theorem load_hashes_result (a : Allocator) (file : Option (List CStr)) (hs : List CStr)
    (h : (load_hashes a file).1 = some hs) :
    ∃ lines, file = some lines ∧ hs = candidates lines := by
  unfold load_hashes at h
  split at h
  · simp at h
  · rename_i lines
    refine ⟨lines, rfl, ?_⟩
    split at h
    · split at h
      · rename_i l2 n2 hl
        simp only [Option.some.injEq] at h
        rw [← h, load_loop_result a _ _ _ _ _ _ hl]; simp
      · simp at h
    · simp at h

theorem load_hashes_null_count (a : Allocator) (file : Option (List CStr))
    (h : (load_hashes a file).1 = none) : (load_hashes a file).2 = 0 := by
  cases file with
  | none => rfl
  | some lines =>
    by_cases hm : a.mallocList = true
    · cases hl : load_loop a lines (INITIAL_HASH_CAP : Int) [] 0 with
      | none => simp [load_hashes, hm, hl]
      | some p => simp [load_hashes, hm, hl] at h
    · simp [load_hashes, hm]

theorem scanStep_core_congr (hashes : List CStr) (d w : CStr) (i : Nat) (st st2 : State)
    (h : st.core = st2.core) :
    (scanStep hashes d w st i).core = (scanStep hashes d w st2 i).core := by
  simp only [State.core, Prod.mk.injEq] at h
  obtain ⟨h1, h2, h3⟩ := h
  unfold scanStep
  rw [h1]
  split
  · simp [State.core, h1, h2, h3]
  · split
    · simp [State.core, h1, h2, h3]
    · simp [State.core, h1, h2, h3]

theorem forLoopUpTo_core_congr (hashes : List CStr) (d w : CStr) (st st2 : State)
    (h : st.core = st2.core) :
    ∀ k, (forLoopUpTo hashes d w k st).core = (forLoopUpTo hashes d w k st2).core := by
  intro k
  induction k with
  | zero => simpa [forLoopUpTo] using h
  | succ k ih =>
    rw [forLoopUpTo_succ, forLoopUpTo_succ]
    exact scanStep_core_congr hashes d w k _ _ ih

theorem scanStep_hashed_congr (hashes : List CStr) (d w : CStr) (i : Nat) (st st2 : State)
    (h : st.hashed = st2.hashed) :
    (scanStep hashes d w st i).hashed = (scanStep hashes d w st2 i).hashed := by
  simp only [State.hashed, Prod.mk.injEq] at h
  obtain ⟨h1, h2, h3, h4⟩ := h
  unfold scanStep
  rw [h1]
  split
  · simp [State.hashed, h1, h2, h3, h4]
  · split
    · simp [State.hashed, h1, h2, h3, h4]
    · simp [State.hashed, h1, h2, h3, h4]

theorem forLoopUpTo_hashed_congr (hashes : List CStr) (d w : CStr) (st st2 : State)
    (h : st.hashed = st2.hashed) :
    ∀ k, (forLoopUpTo hashes d w k st).hashed = (forLoopUpTo hashes d w k st2).hashed := by
  intro k
  induction k with
  | zero => simpa [forLoopUpTo] using h
  | succ k ih =>
    rw [forLoopUpTo_succ, forLoopUpTo_succ]
    exact scanStep_hashed_congr hashes d w k _ _ ih

theorem core_count (st st2 : State) (h : st.core = st2.core) :
    st.cracked_count = st2.cracked_count := by
  simp only [State.core, Prod.mk.injEq] at h
  exact h.2.1

theorem hashed_count (st st2 : State) (h : st.hashed = st2.hashed) :
    st.cracked_count = st2.cracked_count := by
  simp only [State.hashed, Prod.mk.injEq] at h
  exact h.2.1

theorem hashed_core (st st2 : State) (h : st.hashed = st2.hashed) : st.core = st2.core := by
  simp only [State.hashed, Prod.mk.injEq] at h
  simp [State.core, h.1, h.2.1, h.2.2.1]

theorem hashed_calls (st st2 : State) (h : st.hashed = st2.hashed) : st.calls = st2.calls := by
  simp only [State.hashed, Prod.mk.injEq] at h
  exact h.2.2.2

theorem whileLoop_core_congr (hashes : List CStr) (n : Nat) (md5 : CStr → Option CStr)
    (dict : List CStr) :
    ∀ st st2, st.core = st2.core →
      (whileLoop hashes n md5 dict st).core = (whileLoop hashes n md5 dict st2).core := by
  induction dict with
  | nil => intro st st2 h; simpa [whileLoop] using h
  | cons line rest ih =>
    intro st st2 h
    simp only [whileLoop]
    split
    · exact ih _ _ h
    · split
      · exact ih _ _ h
      · rename_i digest _
        have h3 := forLoopUpTo_core_congr hashes digest (trim line)
          { st with reads := st.reads ++ [(line, st.cracked_count)],
                    calls := st.calls ++ [(trim line, st.cracked_count)] }
          { st2 with reads := st2.reads ++ [(line, st2.cracked_count)],
                     calls := st2.calls ++ [(trim line, st2.cracked_count)] } h n
        unfold forLoop
        rw [core_count _ _ h3]
        split
        · exact h3
        · exact ih _ _ h3

theorem whileLoop_hashed_congr (hashes : List CStr) (n : Nat) (md5 : CStr → Option CStr)
    (dict : List CStr) :
    ∀ st st2, st.hashed = st2.hashed →
      (whileLoop hashes n md5 dict st).hashed = (whileLoop hashes n md5 dict st2).hashed := by
  induction dict with
  | nil => intro st st2 h; simpa [whileLoop] using h
  | cons line rest ih =>
    intro st st2 h
    have hc := hashed_count _ _ h
    have hcalls := hashed_calls _ _ h
    have h2 : State.hashed
        { st with reads := st.reads ++ [(line, st.cracked_count)],
                  calls := st.calls ++ [(trim line, st.cracked_count)] } =
        State.hashed
        { st2 with reads := st2.reads ++ [(line, st2.cracked_count)],
                   calls := st2.calls ++ [(trim line, st2.cracked_count)] } := by
      simp only [State.hashed, Prod.mk.injEq] at h ⊢
      exact ⟨h.1, h.2.1, h.2.2.1, by rw [hcalls, hc]⟩
    simp only [whileLoop]
    split
    · exact ih _ _ h
    · split
      · exact ih _ _ h2
      · rename_i digest _
        have h3 := forLoopUpTo_hashed_congr hashes digest (trim line) _ _ h2 n
        unfold forLoop
        rw [hashed_count _ _ h3]
        split
        · exact h3
        · exact ih _ _ h3

theorem whileLoop_candidates (hashes : List CStr) (n : Nat) (md5 : CStr → Option CStr)
    (dict : List CStr) :
    ∀ st, (whileLoop hashes n md5 dict st).hashed =
      (whileLoop hashes n md5 (candidates dict) st).hashed := by
  induction dict with
  | nil => intro st; rfl
  | cons line rest ih =>
    intro st
    rw [candidates_cons]
    by_cases hb : trim line = []
    · rw [if_pos hb]
      simp only [whileLoop, hb, if_true]
      rw [← ih st]
      exact whileLoop_hashed_congr hashes n md5 rest _ _ rfl
    · rw [if_neg hb]
      simp only [whileLoop, hb, if_false, trim_idem]
      have h2 : State.hashed
          { st with reads := st.reads ++ [(line, st.cracked_count)],
                    calls := st.calls ++ [(trim line, st.cracked_count)] } =
          State.hashed
          { st with reads := st.reads ++ [(trim line, st.cracked_count)],
                    calls := st.calls ++ [(trim line, st.cracked_count)] } := rfl
      split
      · rw [ih]
        exact whileLoop_hashed_congr hashes n md5 _ _ _ h2
      · rename_i digest _
        have h3 := forLoopUpTo_hashed_congr hashes digest (trim line) _ _ h2 n
        unfold forLoop
        rw [hashed_count _ _ h3]
        split
        · exact h3
        · rw [ih]
          exact whileLoop_hashed_congr hashes n md5 _ _ _ h3

theorem run_candidates (hashes : List CStr) (md5 : CStr → Option CStr) (dict dict2 : List CStr)
    (h : candidates dict = candidates dict2) :
    (run hashes md5 dict).hashed = (run hashes md5 dict2).hashed := by
  unfold run
  rw [whileLoop_candidates hashes _ md5 dict, whileLoop_candidates hashes _ md5 dict2, h]

theorem whileLoop_skip_failed (hashes : List CStr) (n : Nat) (md5 : CStr → Option CStr)
    (line : CStr) (post : List CStr) (hfail : md5 (trim line) = none) (pre : List CStr) :
    ∀ st, (whileLoop hashes n md5 (pre ++ line :: post) st).core =
      (whileLoop hashes n md5 (pre ++ post) st).core := by
  induction pre with
  | nil =>
    intro st
    simp only [List.nil_append, whileLoop]
    split
    · exact whileLoop_core_congr hashes n md5 post _ _ rfl
    · rw [hfail]
      exact whileLoop_core_congr hashes n md5 post _ _ rfl
  | cons x pre ih =>
    intro st
    simp only [List.cons_append, whileLoop]
    split
    · exact ih _
    · split
      · exact ih _
      · split
        · rfl
        · exact ih _

theorem whileLoop_mono (hashes : List CStr) (md5 : CStr → Option CStr) (dict : List CStr) :
    ∀ st, st.cracked.length = hashes.length →
      ∀ j, st.cracked.getD j false = true →
        (whileLoop hashes hashes.length md5 dict st).cracked.getD j false = true := by
  induction dict with
  | nil => intro st _ j h; simpa [whileLoop] using h
  | cons line rest ih =>
    intro st hlen j h
    simp only [whileLoop]
    split
    · exact ih { st with reads := st.reads ++ [(line, st.cracked_count)] } hlen j h
    · split
      · exact ih { st with reads := st.reads ++ [(line, st.cracked_count)],
                           calls := st.calls ++ [(trim line, st.cracked_count)] } hlen j h
      · rename_i digest _
        obtain ⟨hlen3, hget, _⟩ := forLoopUpTo_spec hashes digest (trim line)
          { st with reads := st.reads ++ [(line, st.cracked_count)],
                    calls := st.calls ++ [(trim line, st.cracked_count)] }
          hashes.length (le_of_eq hlen.symm)
        have h3 : (forLoop hashes hashes.length digest (trim line)
            { st with reads := st.reads ++ [(line, st.cracked_count)],
                      calls := st.calls ++ [(trim line, st.cracked_count)] }).cracked.getD j
              false = true := by
          unfold forLoop; rw [hget j]
          show (st.cracked.getD j false || _) = true
          rw [h]; rfl
        split
        · exact h3
        · exact ih _ (by unfold forLoop; rw [hlen3]; exact hlen) j h3

theorem hello_run (md5 : CStr → Option CStr)
    (hhello : md5 "hello".toList = some helloDigest)
    (hfoo : md5 "foo".toList ≠ some helloDigest) :
    (run [helloDigest] md5 ["foo".toList, "hello".toList, "bar".toList]).hashed =
      ([true], 1, [{ idx := 0, digest := helloDigest, word := "hello".toList }],
        [("foo".toList, 0), ("hello".toList, 0)]) := by
  have t1 : trim "foo".toList = "foo".toList := by decide
  have t2 : trim "hello".toList = "hello".toList := by decide
  have n1 : ¬ "foo".toList = ([] : CStr) := by decide
  have n2 : ¬ "hello".toList = ([] : CStr) := by decide
  have hstep : ∀ st : State, st.cracked = [false] → st.cracked_count = 0 → st.events = [] →
      forLoop [helloDigest] 1 helloDigest "hello".toList st =
        { st with cracked := [true], cracked_count := 1,
                  events := [{ idx := 0, digest := helloDigest, word := "hello".toList }] } := by
    intro st h1 h2 h3
    simp [forLoop, forLoopUpTo, List.range_succ, scanStep, h1, h2, h3]
  have hmiss : ∀ (d : CStr) (st : State), d ≠ helloDigest → st.cracked = [false] →
      forLoop [helloDigest] 1 d "foo".toList st = st := by
    intro d st hd h1
    simp [forLoop, forLoopUpTo, List.range_succ, scanStep, h1, hd]
  cases hf : md5 "foo".toList with
  | none =>
    simp only [run, whileLoop, t1, t2, n1, n2, if_false, hf, hhello, List.length_singleton]
    rw [hstep _ rfl rfl rfl]
    simp [State.hashed, initState]
  | some d =>
    have hd : d ≠ helloDigest := by
      intro h; apply hfoo; rw [hf, h]
    simp only [run, whileLoop, t1, t2, n1, n2, if_false, hf, hhello, List.length_singleton]
    rw [hmiss d _ hd rfl]
    simp only [initState, List.replicate]
    rw [hstep _ rfl rfl rfl]
    simp [State.hashed]

theorem candidates_ne_nil (dict : List CStr) (w : CStr) (h : w ∈ candidates dict) : w ≠ [] := by
  obtain ⟨line, _, hne, rfl⟩ := (mem_candidates dict w).mp h
  exact hne

theorem discovery_first (hashes : List CStr) (P : List (CStr × CStr)) :
    ∀ seen e, e ∈ discovery hashes seen P →
      hashes.getD e.idx [] ∉ seen ∧
      P.find? (fun p => decide (p.2 = hashes.getD e.idx [])) =
        some (e.word, hashes.getD e.idx []) := by
  induction P with
  | nil => intro seen e he; simp [discovery] at he
  | cons p rest ih =>
    intro seen e he
    obtain ⟨w, d⟩ := p
    simp only [discovery, List.mem_append, List.mem_map, List.mem_filter, List.mem_range,
      Bool.and_eq_true, decide_eq_true_eq, Bool.not_eq_true', decide_eq_false_iff_not] at he
    rcases he with ⟨i, ⟨_, hd, hseen⟩, rfl⟩ | he
    · refine ⟨hseen, ?_⟩
      simp only [List.find?_cons]
      rw [decide_eq_true hd.symm, hd]
    · obtain ⟨h1, h2⟩ := ih (d :: seen) e he
      refine ⟨fun h => h1 (List.mem_cons_of_mem _ h), ?_⟩
      have hne : ¬ d = hashes.getD e.idx [] := fun h => h1 (by rw [← h]; exact List.mem_cons_self _ _)
      simp only [List.find?_cons]
      rw [decide_eq_false hne]
      exact h2

theorem digested_find (md5 : CStr → Option CStr) (h w : CStr) (ws : List CStr) :
    (digested md5 ws).find? (fun p => decide (p.2 = h)) = some (w, h) →
      ws.find? (fun x => decide (md5 x = some h)) = some w := by
  induction ws with
  | nil => intro hf; simp [digested] at hf
  | cons x rest ih =>
    intro hf
    cases hx : md5 x with
    | none =>
      have hd : digested md5 (x :: rest) = digested md5 rest := by simp [digested, hx]
      rw [hd] at hf
      simp only [List.find?_cons, hx]
      rw [decide_eq_false (by simp)]
      exact ih hf
    | some d =>
      have hd : digested md5 (x :: rest) = (x, d) :: digested md5 rest := by
        simp [digested, hx]
      rw [hd] at hf
      simp only [List.find?_cons, hx] at hf ⊢
      by_cases hdh : d = h
      · rw [decide_eq_true hdh] at hf
        rw [decide_eq_true (by rw [hdh])]
        simp only [Option.some.injEq, Prod.mk.injEq] at hf
        rw [hf.1]
      · rw [decide_eq_false hdh] at hf
        rw [decide_eq_false (by simpa using hdh)]
        exact ih hf

theorem find_of_prefix (p : CStr → Bool) (ws cs : List CStr) (w : CStr) (hpre : ws <+: cs)
    (h : ws.find? p = some w) : cs.find? p = some w := by
  obtain ⟨t, rfl⟩ := hpre
  rw [List.find?_append, h]; rfl

theorem run_cracked_iff (hashes : List CStr) (md5 : CStr → Option CStr) (dict : List CStr)
    (j : Nat) (hj : j < hashes.length) :
    (run hashes md5 dict).cracked.getD j false = true ↔
      ∃ line ∈ dict, trim line ≠ [] ∧ md5 (trim line) = some (hashes.getD j []) := by
  have hcore := whileLoop_core_eq hashes hashes.length md5 dict (initState hashes.length)
    (good_init hashes md5).wf
  have hcr : (run hashes md5 dict).cracked =
      (whileLoopNoBreak hashes hashes.length md5 dict (initState hashes.length)).cracked :=
    congrArg Prod.fst hcore
  rw [hcr, whileLoopNoBreak_cracked hashes md5 dict j hj (initState hashes.length)
    (by simp [initState])]
  have hinit : (initState hashes.length).cracked.getD j false = false := by
    simp [initState, List.getD_eq_getElem?_getD, List.getElem?_replicate, hj]
  rw [hinit]
  simp

theorem crackable_iff (md5 : CStr → Option CStr) (dict : List CStr) (h : CStr) :
    crackable md5 dict h = true ↔
      ∃ line ∈ dict, trim line ≠ [] ∧ md5 (trim line) = some h := by
  unfold crackable
  rw [List.any_eq_true]
  constructor
  · rintro ⟨w, hw, hd⟩
    obtain ⟨line, hl, hne, rfl⟩ := (mem_candidates dict w).mp hw
    exact ⟨line, hl, hne, by simpa using hd⟩
  · rintro ⟨line, hl, hne, hd⟩
    exact ⟨trim line, (mem_candidates dict _).mpr ⟨line, hl, hne, rfl⟩, by simpa using hd⟩

theorem run_cracked_eq (hashes : List CStr) (md5 : CStr → Option CStr) (dict : List CStr) :
    (run hashes md5 dict).cracked = hashes.map (crackable md5 dict) := by
  have hlen : (run hashes md5 dict).cracked.length = hashes.length :=
    (whileLoop_good hashes md5 dict (initState hashes.length) (good_init hashes md5)).wf.1
  apply List.ext_getElem (by rw [hlen, List.length_map])
  intro j h1 h2
  have hj : j < hashes.length := by rw [← hlen]; exact h1
  have hl : (run hashes md5 dict).cracked.getD j false = (run hashes md5 dict).cracked[j] := by
    simp [List.getD_eq_getElem?_getD, List.getElem?_eq_getElem h1]
  have hr : hashes.getD j [] = hashes[j] := by
    simp [List.getD_eq_getElem?_getD, List.getElem?_eq_getElem hj]
  rw [List.getElem_map, ← hl, ← hr]
  rw [Bool.eq_iff_iff, run_cracked_iff hashes md5 dict j hj, crackable_iff]

theorem run_count_eq (hashes : List CStr) (md5 : CStr → Option CStr) (dict : List CStr) :
    (run hashes md5 dict).cracked_count = hashes.countP (crackable md5 dict) := by
  have hcnt : (run hashes md5 dict).cracked_count = (run hashes md5 dict).cracked.count true :=
    (whileLoop_good hashes md5 dict (initState hashes.length) (good_init hashes md5)).wf.2
  rw [hcnt, run_cracked_eq, List.count_eq_countP, List.countP_map]
  apply List.countP_congr
  intro h _
  simp

theorem crackable_perm (md5 : CStr → Option CStr) (dict dict2 : List CStr)
    (hp : dict.Perm dict2) : crackable md5 dict = crackable md5 dict2 := by
  funext h
  rw [Bool.eq_iff_iff, crackable_iff, crackable_iff]
  constructor
  · rintro ⟨line, hl, rest⟩
    exact ⟨line, hp.mem_iff.mp hl, rest⟩
  · rintro ⟨line, hl, rest⟩
    exact ⟨line, hp.mem_iff.mpr hl, rest⟩

theorem wrapInt_of_small (x : Int) (h0 : 0 ≤ x) (h1 : x ≤ 1073741824) : wrapInt x = x := by
  unfold wrapInt
  omega

theorem wrapInt_overflow : wrapInt (1073741824 * 2) = -2147483648 := by
  decide

theorem pow_two_le_max (k : Nat) (hk : k ≤ 30) : 2 ^ k ≤ MAX_STORED := by
  have : (2 : Nat) ^ k ≤ 2 ^ 30 := Nat.pow_le_pow_right (by decide) hk
  simpa [MAX_STORED] using this

theorem pow_two_eq_max (k : Nat) (hk : k ≤ 30) (hnot : ¬ k < 30) : 2 ^ k = MAX_STORED := by
  have : k = 30 := by omega
  subst this
  rfl

theorem load_loop_within (a : Allocator) (hmem : a.LoadOk) (lines : List CStr) :
    ∀ (k : Nat) (list : List CStr) (n : Nat), k ≤ 30 → n ≤ 2 ^ k →
      n + (candidates lines).length ≤ MAX_STORED →
      load_loop a lines ((2 ^ k : Nat) : Int) list n =
        some (list ++ candidates lines, n + (candidates lines).length) := by
  obtain ⟨_, hre, hdup⟩ := hmem
  induction lines with
  | nil => intro k list n _ _ _; simp [load_loop, candidates]
  | cons line rest ih =>
    intro k list n hk hn hbound
    rw [candidates_cons] at hbound ⊢
    by_cases hb : trim line = []
    · rw [if_pos hb] at hbound ⊢
      simp only [load_loop, hb, if_true]
      exact ih k list n hk hn hbound
    · rw [if_neg hb] at hbound ⊢
      simp only [List.length_cons] at hbound ⊢
      have hpos : 0 < 2 ^ k := Nat.pow_pos (by decide)
      have hmax := pow_two_le_max k hk
      simp only [load_loop, hb, if_false, hdup, if_true]
      by_cases hfull : (n : Int) ≥ ((2 ^ k : Nat) : Int)
      · have hnk : n = 2 ^ k := by omega
        have hk30 : k < 30 := by
          by_contra hnot
          have := pow_two_eq_max k hk hnot
          omega
        have hdouble : ((2 ^ k : Nat) : Int) * 2 = ((2 ^ (k + 1) : Nat) : Int) := by
          rw [pow_succ]; push_cast; ring
        have hmax2 := pow_two_le_max (k + 1) hk30
        have hwrap : wrapInt (((2 ^ k : Nat) : Int) * 2) = ((2 ^ (k + 1) : Nat) : Int) := by
          rw [hdouble]
          apply wrapInt_of_small
          · omega
          · simp only [MAX_STORED] at hmax2; omega
        have hpos2 : 0 < 2 ^ (k + 1) := Nat.pow_pos (by decide)
        rw [if_pos hfull, hwrap, hre _ (by omega), if_pos rfl,
          ih (k + 1) _ (n + 1) hk30 (by rw [pow_succ]; omega) (by omega)]
        simp only [List.append_assoc, List.singleton_append, Option.some.injEq, Prod.mk.injEq,
          true_and]
        omega
      · rw [if_neg hfull, ih k _ (n + 1) hk (by omega) (by omega)]
        simp only [List.append_assoc, List.singleton_append, Option.some.injEq, Prod.mk.injEq,
          true_and]
        omega

theorem load_hashes_within (a : Allocator) (hmem : a.LoadOk) (lines : List CStr)
    (hbound : (candidates lines).length ≤ MAX_STORED) :
    load_hashes a (some lines) = (some (candidates lines), (candidates lines).length) := by
  have h := load_loop_within a hmem lines 7 [] 0 (by decide) (by decide) (by omega)
  have hcap : ((2 ^ 7 : Nat) : Int) = (INITIAL_HASH_CAP : Int) := by decide
  rw [hcap] at h
  simp only [load_hashes, hmem.1, if_true, h]
  simp

theorem load_loop_stored_le (a : Allocator) (hrefuse : ∀ c : Int, c ≤ 0 → a.reallocList c = false)
    (lines : List CStr) :
    ∀ (k : Nat) (list : List CStr) (n : Nat) (l2 : List CStr) (n2 : Nat), k ≤ 30 → n ≤ 2 ^ k →
      load_loop a lines ((2 ^ k : Nat) : Int) list n = some (l2, n2) → n2 ≤ MAX_STORED := by
  induction lines with
  | nil =>
    intro k list n l2 n2 hk hn h
    simp only [load_loop, Option.some.injEq, Prod.mk.injEq] at h
    have := pow_two_le_max k hk
    omega
  | cons line rest ih =>
    intro k list n l2 n2 hk hn h
    simp only [load_loop] at h
    split at h
    · exact ih k list n l2 n2 hk hn h
    · split at h
      · rename_i hfull
        have hnk : n = 2 ^ k := by omega
        by_cases hk30 : k < 30
        · have hdouble : ((2 ^ k : Nat) : Int) * 2 = ((2 ^ (k + 1) : Nat) : Int) := by
            rw [pow_succ]; push_cast; ring
          have hmax2 := pow_two_le_max (k + 1) hk30
          have hwrap : wrapInt (((2 ^ k : Nat) : Int) * 2) = ((2 ^ (k + 1) : Nat) : Int) := by
            rw [hdouble]
            apply wrapInt_of_small
            · omega
            · simp only [MAX_STORED] at hmax2; omega
          rw [hwrap] at h
          have hpos : 0 < 2 ^ k := Nat.pow_pos (by decide)
          split at h
          · split at h
            · exact ih (k + 1) _ (n + 1) l2 n2 hk30 (by rw [pow_succ]; omega) h
            · exact Option.noConfusion h
          · exact Option.noConfusion h
        · have hmaxeq := pow_two_eq_max k hk hk30
          have hcap : ((2 ^ k : Nat) : Int) * 2 = 1073741824 * 2 := by
            rw [hmaxeq]; rfl
          rw [hcap, wrapInt_overflow, hrefuse _ (by decide)] at h
          simp at h
      · rename_i hfull
        split at h
        · exact ih k _ (n + 1) l2 n2 hk (by omega) h
        · exact Option.noConfusion h

theorem load_hashes_overflow (a : Allocator)
    (hrefuse : ∀ c : Int, c ≤ 0 → a.reallocList c = false) (lines : List CStr)
    (hmany : MAX_STORED < (candidates lines).length) :
    load_hashes a (some lines) = (none, 0) := by
  have hcap : (INITIAL_HASH_CAP : Int) = ((2 ^ 7 : Nat) : Int) := by decide
  simp only [load_hashes]
  split
  · cases hl : load_loop a lines (INITIAL_HASH_CAP : Int) [] 0 with
    | none => rfl
    | some p =>
      obtain ⟨l2, n2⟩ := p
      have h1 := load_loop_result a lines _ [] 0 l2 n2 hl
      have h2 := load_loop_count a lines _ [] 0 l2 n2 hl rfl
      rw [hcap] at hl
      have h3 := load_loop_stored_le a hrefuse lines 7 [] 0 l2 n2 (by decide) (by decide) hl
      rw [h2, h1] at h3
      simp only [List.nil_append] at h3
      omega
  · rfl

/-! ## The claims -/

/-- C1: at the end of the run, target entry `i` is marked cracked if and only
if some line of the dictionary, non-empty after trimming and with a digest that
is computed, has a digest equal to the stored digest of entry `i`.  The line
ranges over the whole dictionary, whether or not the loop stopped early. -/
theorem cracked_iff_some_line_matches (hashes : List CStr) (md5 : CStr → Option CStr)
    (dict : List CStr) (i : Nat) (hi : i < hashes.length) :
    (run hashes md5 dict).cracked.getD i false = true ↔
      ∃ line ∈ dict, trim line ≠ [] ∧ md5 (trim line) = some (hashes.getD i []) := by
  have hcore := whileLoop_core_eq hashes hashes.length md5 dict (initState hashes.length)
    (good_init hashes md5).wf
  have hcr : (run hashes md5 dict).cracked =
      (whileLoopNoBreak hashes hashes.length md5 dict (initState hashes.length)).cracked :=
    congrArg Prod.fst hcore
  rw [hcr, whileLoopNoBreak_cracked hashes md5 dict i hi (initState hashes.length)
    (by simp [initState])]
  have hinit : (initState hashes.length).cracked.getD i false = false := by
    simp [initState, List.getD_eq_getElem?_getD, List.getElem?_replicate, hi]
  rw [hinit]
  simp

/-- C1, at the target `"x"` and the dictionary line `"a\n"`. -/
theorem cracked_iff_some_line_matches_witness :
    0 < ([['x']] : List CStr).length ∧
    ((run [['x']] sampleDigest [['a', '\n']]).cracked.getD 0 false = true ↔
      ∃ line ∈ ([['a', '\n']] : List CStr), trim line ≠ [] ∧
        sampleDigest (trim line) = some (([['x']] : List CStr).getD 0 [])) :=
  ⟨by decide, cracked_iff_some_line_matches [['x']] sampleDigest [['a', '\n']] 0 (by decide)⟩

/-- C2 as stated fails for the empty target set: the counter and the target
count are both 0 from the start, and `md5` is still called on the first word. -/
theorem no_call_once_all_cracked_counterexample :
    ¬ ∀ c ∈ (run [] sampleDigest [['a']]).calls, c.2 ≠ ([] : List CStr).length := by
  decide

/-- C2, amended: for a non-empty target set, no word is read by `fgets` and no
word is handed to `md5` at a moment when `cracked_count` equals `hash_count`. -/
theorem no_call_once_all_cracked (hashes : List CStr) (md5 : CStr → Option CStr)
    (dict : List CStr) (hne : hashes ≠ []) :
    (∀ c ∈ (run hashes md5 dict).calls, c.2 ≠ hashes.length) ∧
    (∀ r ∈ (run hashes md5 dict).reads, r.2 ≠ hashes.length) := by
  have hpos : 0 < hashes.length := List.length_pos.mpr hne
  obtain ⟨h1, h2⟩ := whileLoop_log hashes hashes.length md5 dict (initState hashes.length)
    (good_init hashes md5).wf (by simpa [initState] using hpos)
    (by simp [initState]) (by simp [initState])
  exact ⟨fun c hc => Nat.ne_of_lt (h1 c hc), fun r hr => Nat.ne_of_lt (h2 r hr)⟩

/-- C2 amended, at the target `"x"` and the dictionary `"a"`, `"b"`. -/
theorem no_call_once_all_cracked_witness :
    ([['x']] : List CStr) ≠ [] ∧
    ((∀ c ∈ (run [['x']] sampleDigest [['a'], ['b']]).calls,
        c.2 ≠ ([['x']] : List CStr).length) ∧
      (∀ r ∈ (run [['x']] sampleDigest [['a'], ['b']]).reads,
        r.2 ≠ ([['x']] : List CStr).length)) :=
  ⟨by decide, no_call_once_all_cracked [['x']] sampleDigest [['a'], ['b']] (by decide)⟩

/-- C3: the loop with the test `if (cracked_count == hash_count) break;` and the
loop without it end with the same match events, the same flags and the same
counter. -/
theorem break_is_pure_short_circuit (hashes : List CStr) (md5 : CStr → Option CStr)
    (dict : List CStr) :
    (run hashes md5 dict).events = (runNoBreak hashes md5 dict).events ∧
    (run hashes md5 dict).cracked = (runNoBreak hashes md5 dict).cracked ∧
    (run hashes md5 dict).cracked_count = (runNoBreak hashes md5 dict).cracked_count := by
  have hcore := whileLoop_core_eq hashes hashes.length md5 dict (initState hashes.length)
    (good_init hashes md5).wf
  simp only [State.core, Prod.mk.injEq] at hcore
  exact ⟨hcore.2.2, hcore.1, hcore.2.1⟩

/-- C4 as stated fails: with no targets and the dictionary `"a"`, `"b"`, the
word `"b"` is never hashed. -/
theorem empty_targets_run_counterexample :
    (run [] sampleDigest [['a'], ['b']]).calls.map Prod.fst ≠ candidates [['a'], ['b']] := by
  decide

/-- C4, amended: with an empty target set the run emits no match event and
reports the count 0 (`0 hashes cracked!`); it reads the dictionary up to and
including the first non-empty word whose digest is computed, and to its end
only when there is none, and hashes the non-empty words among the lines read. -/
theorem empty_targets_run (md5 : CStr → Option CStr) (dict : List CStr) :
    (run [] md5 dict).events = [] ∧
    (run [] md5 dict).cracked_count = 0 ∧
    summaryLine (run [] md5 dict).cracked_count = "0 hashes cracked!\n".toList ∧
    (run [] md5 dict).reads.map Prod.fst = uptoFirstDigest md5 dict ∧
    (run [] md5 dict).calls.map Prod.fst = candidates (uptoFirstDigest md5 dict) := by
  obtain ⟨h1, h2, _, h4, h5⟩ := whileLoop_empty md5 dict (initState 0) rfl
  refine ⟨h1, h2, ?_, ?_, ?_⟩
  · show summaryLine (whileLoop [] 0 md5 dict (initState 0)).cracked_count = _
    rw [h2]; rfl
  · simpa [initState] using h4
  · simpa [initState, candidates] using h5

/-- C5: when `k` entries are uncracked and carry the digest `d`, the `for` loop
on the word `w` with digest `d` appends `k` events, all with digest `d` and word
`w` and one for each of these entries in ascending index order, marks exactly
these entries, and adds `k` to the counter. -/
theorem forLoop_marks_each_match (hashes : List CStr) (d w : CStr) (st : State) (k : Nat)
    (hlen : st.cracked.length = hashes.length)
    (hk : (hitsUpTo hashes st.cracked d hashes.length).length = k) :
    (forLoop hashes hashes.length d w st).events =
      st.events ++ (hitsUpTo hashes st.cracked d hashes.length).map
        (fun i => { idx := i, digest := d, word := w }) ∧
    (forLoop hashes hashes.length d w st).events.length = st.events.length + k ∧
    (∀ j, (forLoop hashes hashes.length d w st).cracked.getD j false = true ↔
      st.cracked.getD j false = true ∨ j ∈ hitsUpTo hashes st.cracked d hashes.length) ∧
    (forLoop hashes hashes.length d w st).cracked_count = st.cracked_count + k := by
  obtain ⟨_, hget, hev, hcnt, _, _⟩ :=
    forLoopUpTo_spec hashes d w st hashes.length (le_of_eq hlen.symm)
  have hmap : (hitsUpTo hashes st.cracked d hashes.length).map
      (fun i => ({ idx := i, digest := hashes.getD i [], word := w } : Event)) =
      (hitsUpTo hashes st.cracked d hashes.length).map
        (fun i => ({ idx := i, digest := d, word := w } : Event)) := by
    apply List.map_congr_left
    intro i hi
    rw [((mem_hitsUpTo _ _ _ _ _).mp hi).2.2]
  unfold forLoop
  refine ⟨by rw [hev, hmap], by rw [hev, ← hk]; simp, ?_, by rw [hcnt, hk]⟩
  intro j
  rw [hget j, mem_hitsUpTo]
  simp only [Bool.or_eq_true, Bool.and_eq_true, decide_eq_true_eq]
  constructor
  · rintro (h1 | ⟨h2, h3⟩)
    · exact Or.inl h1
    · by_cases hc : st.cracked.getD j false = true
      · exact Or.inl hc
      · exact Or.inr ⟨h2, by simpa using hc, h3⟩
  · rintro (h1 | ⟨h2, _, h3⟩)
    · exact Or.inl h1
    · exact Or.inr ⟨h2, h3⟩

/-- C5, at a target set that holds the digest `"x"` twice: one word yields two
events and raises the counter by two. -/
theorem forLoop_marks_each_match_witness :
    (initState 2).cracked.length = ([['x'], ['x']] : List CStr).length ∧
    (hitsUpTo [['x'], ['x']] (initState 2).cracked ['x'] ([['x'], ['x']] : List CStr).length).length
      = 2 ∧
    (forLoop [['x'], ['x']] 2 ['x'] ['a'] (initState 2)).events.length =
      (initState 2).events.length + 2 ∧
    (forLoop [['x'], ['x']] 2 ['x'] ['a'] (initState 2)).cracked_count =
      (initState 2).cracked_count + 2 :=
  ⟨by decide, by decide,
    (forLoop_marks_each_match [['x'], ['x']] ['x'] ['a'] (initState 2) 2
      (by decide) (by decide)).2.1,
    (forLoop_marks_each_match [['x'], ['x']] ['x'] ['a'] (initState 2) 2
      (by decide) (by decide)).2.2.2⟩

/-- C6: no two match events of a run are about the same target index, and each
event prints the stored digest of its index. -/
theorem one_event_per_entry (hashes : List CStr) (md5 : CStr → Option CStr)
    (dict : List CStr) :
    ((run hashes md5 dict).events.map Event.idx).Nodup ∧
    ∀ e ∈ (run hashes md5 dict).events,
      e.idx < hashes.length ∧ e.digest = hashes.getD e.idx [] := by
  have h := whileLoop_good hashes md5 dict (initState hashes.length) (good_init hashes md5)
  exact ⟨h.nodup, fun e he => ⟨(h.ev e he).1, (h.ev e he).2.2.1⟩⟩

/-- C7: the match events of a run are, for the processed words in dictionary
order (the words handed to `md5`, an initial segment of the candidate words of
the dictionary, with their digests), the events `(targets[i], w)` for the
ascending indices `i` whose entry was still uncracked and has the digest of `w`. -/
theorem events_in_discovery_order (hashes : List CStr) (md5 : CStr → Option CStr)
    (dict : List CStr) :
    (run hashes md5 dict).events =
      discovery hashes [] (digested md5 ((run hashes md5 dict).calls.map Prod.fst)) ∧
    (run hashes md5 dict).calls.map Prod.fst <+: candidates dict := by
  obtain ⟨new, h1, h2, h3⟩ := whileLoop_discovery hashes md5 dict (initState hashes.length) []
    (by simp [initState])
    (by
      intro j hj
      simp [initState, List.getD_eq_getElem?_getD, List.getElem?_replicate, hj])
  have hcalls : (run hashes md5 dict).calls = new := by
    unfold run; rw [h1]; simp [initState]
  rw [hcalls]
  refine ⟨?_, h3⟩
  unfold run; rw [h2]; simp [initState]

/-- C8: the counter never exceeds the number of targets, at the end of the run
over any dictionary (hence at every pass through the loop head) and after any
number `k ≤ hash_count` of iterations of the `for` loop started from there. -/
theorem cracked_count_le_hash_count (hashes : List CStr) (md5 : CStr → Option CStr)
    (dict : List CStr) (d w : CStr) (calls reads : List (CStr × Nat)) (k : Nat)
    (hk : k ≤ hashes.length) :
    (run hashes md5 dict).cracked_count ≤ hashes.length ∧
    (forLoopUpTo hashes d w k
      { run hashes md5 dict with calls := calls, reads := reads }).cracked_count
      ≤ hashes.length := by
  have h := (whileLoop_good hashes md5 dict (initState hashes.length) (good_init hashes md5)).wf
  refine ⟨wf_count_le _ _ h, wf_count_le _ _ ?_⟩
  exact forLoopUpTo_wf hashes d w hashes.length
    { run hashes md5 dict with calls := calls, reads := reads } h k hk

/-- C8, at the targets `"x"`, `"y"`, the dictionary `"a"` and a second word
`"b"` scanned over the first target only. -/
theorem cracked_count_le_hash_count_witness :
    1 ≤ ([['x'], ['y']] : List CStr).length ∧
    ((run [['x'], ['y']] sampleDigest [['a']]).cracked_count ≤
        ([['x'], ['y']] : List CStr).length ∧
      (forLoopUpTo [['x'], ['y']] ['y'] ['b'] 1
        { run [['x'], ['y']] sampleDigest [['a']] with calls := [], reads := [] }).cracked_count
        ≤ ([['x'], ['y']] : List CStr).length) :=
  ⟨by decide,
    cracked_count_le_hash_count [['x'], ['y']] sampleDigest [['a']] ['y'] ['b'] [] [] 1
      (by decide)⟩

/-- C9 as stated fails: with the digest `"x"` stored twice and the single word
`"a"`, the count is 2 and one distinct word was hashed. -/
theorem count_le_distinct_words_counterexample :
    ¬ (run [['x'], ['x']] sampleDigest [['a']]).cracked_count ≤
      (((run [['x'], ['x']] sampleDigest [['a']]).calls.map Prod.fst).dedup).length := by
  decide

/-- C9, amended: when the stored digests are pairwise distinct, the final count
does not exceed the number of distinct words handed to `md5`. -/
theorem count_le_distinct_words (hashes : List CStr) (md5 : CStr → Option CStr)
    (dict : List CStr) (hnd : hashes.Nodup) :
    (run hashes md5 dict).cracked_count ≤
      (((run hashes md5 dict).calls.map Prod.fst).dedup).length :=
  good_count_le_distinct hashes md5 _
    (whileLoop_good hashes md5 dict (initState hashes.length) (good_init hashes md5)) hnd

/-- C9 amended, at the targets `"x"`, `"y"` and the dictionary `"a"`, `"a"`, `"b"`. -/
theorem count_le_distinct_words_witness :
    ([['x'], ['y']] : List CStr).Nodup ∧
    (run [['x'], ['y']] sampleDigest [['a'], ['a'], ['b']]).cracked_count ≤
      (((run [['x'], ['y']] sampleDigest [['a'], ['a'], ['b']]).calls.map Prod.fst).dedup).length :=
  ⟨by decide,
    count_le_distinct_words [['x'], ['y']] sampleDigest [['a'], ['a'], ['b']] (by decide)⟩

/-- C10: when the hash file opens, the allocations succeed and at most `2^30`
lines are stored (so that `cap *= 2` does not overflow), `load_hashes` returns
the lines with all trailing `'\n'` and `'\r'` stripped and the empty results
dropped, in order and with repetitions; `*out_count` is the length of that list
and fits an `int`; the flags that `main` allocates for it are all false.  For
any allocator and any number of lines, a list that `load_hashes` returns is
that list, with its length as count. -/
theorem load_hashes_spec (a b : Allocator) (lines lines2 : List CStr)
    (hmem : a.LoadOk) (hbound : (loadSpec lines).length ≤ MAX_STORED) :
    load_hashes a (some lines) = (some (loadSpec lines), (loadSpec lines).length) ∧
    (load_hashes a (some lines)).2 < 2147483648 ∧
    (initState (load_hashes a (some lines)).2).cracked =
      List.replicate (loadSpec lines).length false ∧
    ∀ hs n, load_hashes b (some lines2) = (some hs, n) →
      hs = loadSpec lines2 ∧ n = hs.length := by
  rw [loadSpec_eq_candidates] at hbound
  have h : load_hashes a (some lines) = (some (loadSpec lines), (loadSpec lines).length) := by
    rw [loadSpec_eq_candidates]
    exact load_hashes_within a hmem lines hbound
  refine ⟨h, ?_, ?_, ?_⟩
  · rw [h, loadSpec_eq_candidates]
    simp only [MAX_STORED] at hbound
    show (candidates lines).length < 2147483648
    omega
  · rw [h]; rfl
  · intro hs n hload
    obtain ⟨ls, hls, hcand⟩ := load_hashes_result b (some lines2) hs (by rw [hload])
    have hl : ls = lines2 := (Option.some.inj hls).symm
    rw [loadSpec_eq_candidates, ← hl]
    exact ⟨hcand, load_hashes_count b (some lines2) hs n hload⟩

/-- C10, at the lines `"x\n"`, `"\r\n"`, `"y\r\n"`, `"x"`, with the allocator
that refuses a `realloc` made with a wrapped `cap`. -/
theorem load_hashes_spec_witness :
    Allocator.bounded.LoadOk ∧
    (loadSpec [['x', '\n'], ['\r', '\n'], ['y', '\r', '\n'], ['x']]).length ≤ MAX_STORED ∧
    load_hashes Allocator.bounded
        (some [['x', '\n'], ['\r', '\n'], ['y', '\r', '\n'], ['x']]) =
      (some (loadSpec [['x', '\n'], ['\r', '\n'], ['y', '\r', '\n'], ['x']]),
        (loadSpec [['x', '\n'], ['\r', '\n'], ['y', '\r', '\n'], ['x']]).length) :=
  ⟨⟨rfl, fun _ hc => decide_eq_true hc, fun _ => rfl⟩, by decide,
    (load_hashes_spec Allocator.bounded Allocator.total
      [['x', '\n'], ['\r', '\n'], ['y', '\r', '\n'], ['x']] []
      ⟨rfl, fun _ hc => decide_eq_true hc, fun _ => rfl⟩ (by decide)).1⟩

/-- C11 as stated fails: the line `" x \n"` is stored as `" x "`, which begins
and ends with a space. -/
theorem stored_digests_trimmed_counterexample :
    ¬ ∀ e ∈ ((load_hashes Allocator.total (some [[' ', 'x', ' ', '\n']])).1.getD []),
      hasOuterWhitespace e = false := by
  decide

/-- C11, amended: the loader strips trailing CR and LF only.  No stored entry
is empty or ends with CR or LF, and an input line that consists only of CR and
LF characters produces no entry. -/
theorem stored_digests_trimmed (a : Allocator) (file : Option (List CStr)) (hs : List CStr)
    (e blank : CStr) (pre post : List CStr)
    (h : (load_hashes a file).1 = some hs) (he : e ∈ hs)
    (hblank : ∀ c ∈ blank, isLineEnd c = true) :
    e ≠ [] ∧ endsInLineEnd e = false ∧
    load_hashes a (some (pre ++ blank :: post)) = load_hashes a (some (pre ++ post)) := by
  obtain ⟨lines, _, rfl⟩ := load_hashes_result a file hs h
  obtain ⟨line, _, hne, rfl⟩ := (mem_candidates lines e).mp he
  exact ⟨hne, endsInLineEnd_trim line,
    load_hashes_candidates a _ _
      (candidates_blank pre post blank ((trim_eq_nil_iff blank).mpr hblank))⟩

/-- C11 amended, at the file `"x\r\n"`, `"\r\n"`, `"y\n"`. -/
theorem stored_digests_trimmed_witness :
    (load_hashes Allocator.total (some [['x', '\r', '\n'], ['\r', '\n'], ['y', '\n']])).1 =
      some [['x'], ['y']] ∧
    (['x'] : CStr) ∈ ([['x'], ['y']] : List CStr) ∧
    (∀ c ∈ (['\r', '\n'] : CStr), isLineEnd c = true) ∧
    ((['x'] : CStr) ≠ [] ∧ endsInLineEnd ['x'] = false ∧
      load_hashes Allocator.total (some ([['x', '\r', '\n']] ++ ['\r', '\n'] :: [['y', '\n']])) =
        load_hashes Allocator.total (some ([['x', '\r', '\n']] ++ [['y', '\n']]))) :=
  ⟨by decide, by decide, by decide,
    stored_digests_trimmed Allocator.total
      (some [['x', '\r', '\n'], ['\r', '\n'], ['y', '\n']]) [['x'], ['y']] ['x'] ['\r', '\n']
      [['x', '\r', '\n']] [['y', '\n']] (by decide) (by decide) (by decide)⟩

/-- C12: with the single target `5d41402abc4b2a76b9719d911017c592`, a
dictionary whose lines trim to `foo`, `hello`, `bar`, and a digest function
that maps `hello` to the target and `foo` to something else (or fails on it),
the standard output is the line `5d41402abc4b2a76b9719d911017c592 hello`
followed by `1 hashes cracked!`, the exit status is 0, and `md5` is called on
`foo` and `hello` only, never on `bar`. -/
theorem hello_scenario (a : Allocator) (fopen : CStr → Option (List CStr))
    (md5 : CStr → Option CStr) (argv dict : List CStr) (n : Nat)
    (hargs : argv.length = 3)
    (hload : load_hashes a (fopen (argv.getD 1 [])) = (some [helloDigest], n))
    (hflags : a.callocFlags = true)
    (hdict : fopen (argv.getD 2 []) = some dict)
    (hwords : dict.map trim = ["foo".toList, "hello".toList, "bar".toList])
    (hhello : md5 "hello".toList = some helloDigest)
    (hfoo : md5 "foo".toList ≠ some helloDigest) :
    main a fopen md5 argv =
      { stdout := ["5d41402abc4b2a76b9719d911017c592 hello\n".toList,
                   "1 hashes cracked!\n".toList],
        status := 0 } ∧
    (run [helloDigest] md5 dict).calls.map Prod.fst = ["foo".toList, "hello".toList] ∧
    ∀ c ∈ (run [helloDigest] md5 dict).calls, c.1 ≠ "bar".toList := by
  have hcand : candidates dict =
      candidates ["foo".toList, "hello".toList, "bar".toList] := by
    unfold candidates
    rw [hwords]
    decide
  have hrun := (run_candidates [helloDigest] md5 dict _ hcand).trans
    (hello_run md5 hhello hfoo)
  simp only [State.hashed, Prod.mk.injEq] at hrun
  obtain ⟨_, hcount, hevents, hcalls⟩ := hrun
  refine ⟨?_, by rw [hcalls]; rfl, ?_⟩
  · rw [main_eq_run a fopen md5 argv [helloDigest] dict n hargs hload hflags hdict,
      hevents, hcount]
    decide
  · rw [hcalls]
    decide

/-- C12, at the sample files: the hash file `"h"` and the dictionary `"d"`
with the lines `"foo\n"`, `"hello\r\n"`, `"bar"`. -/
theorem hello_scenario_witness :
    main Allocator.total sampleFiles scenarioDigest [['p'], ['h'], ['d']] =
      { stdout := ["5d41402abc4b2a76b9719d911017c592 hello\n".toList,
                   "1 hashes cracked!\n".toList],
        status := 0 } ∧
    (run [helloDigest] scenarioDigest
      ["foo\n".toList, "hello\r\n".toList, "bar".toList]).calls.map Prod.fst =
        ["foo".toList, "hello".toList] :=
  ⟨(hello_scenario Allocator.total sampleFiles scenarioDigest [['p'], ['h'], ['d']]
      ["foo\n".toList, "hello\r\n".toList, "bar".toList] 1
      (by decide) (by decide) (by decide) (by decide) (by decide) (by decide) (by decide)).1,
    (hello_scenario Allocator.total sampleFiles scenarioDigest [['p'], ['h'], ['d']]
      ["foo\n".toList, "hello\r\n".toList, "bar".toList] 1
      (by decide) (by decide) (by decide) (by decide) (by decide) (by decide) (by decide)).2.1⟩

/-- C13: at the end of the run over any dictionary and after any `k ≤ hash_count`
further iterations of the `for` loop, the counter equals the number of set
flags and the number of match lines printed; the standard output of a
completed run is the match lines followed by the one summary line, whose number
is the number of match lines and of set flags. -/
theorem counter_counts_flags_and_lines (a : Allocator) (fopen : CStr → Option (List CStr))
    (md5 : CStr → Option CStr) (argv hashes dict : List CStr) (n : Nat)
    (d w : CStr) (calls reads : List (CStr × Nat)) (k : Nat)
    (hk : k ≤ hashes.length)
    (hargs : argv.length = 3)
    (hload : load_hashes a (fopen (argv.getD 1 [])) = (some hashes, n))
    (hflags : a.callocFlags = true)
    (hdict : fopen (argv.getD 2 []) = some dict) :
    ((forLoopUpTo hashes d w k
        { run hashes md5 dict with calls := calls, reads := reads }).cracked_count =
      (forLoopUpTo hashes d w k
        { run hashes md5 dict with calls := calls, reads := reads }).cracked.count true) ∧
    ((forLoopUpTo hashes d w k
        { run hashes md5 dict with calls := calls, reads := reads }).cracked_count =
      ((forLoopUpTo hashes d w k
        { run hashes md5 dict with calls := calls, reads := reads }).events.map
          matchLine).length) ∧
    (main a fopen md5 argv).stdout =
      (run hashes md5 dict).events.map matchLine ++
        [summaryLine ((run hashes md5 dict).events.map matchLine).length] ∧
    ((run hashes md5 dict).events.map matchLine).length =
      (run hashes md5 dict).cracked.count true := by
  have hg := whileLoop_good hashes md5 dict (initState hashes.length) (good_init hashes md5)
  have hwf : Wf hashes.length { run hashes md5 dict with calls := calls, reads := reads } :=
    hg.wf
  obtain ⟨_, _, hev, hcnt, _, _⟩ := forLoopUpTo_spec hashes d w
    { run hashes md5 dict with calls := calls, reads := reads } k
    (by rw [hwf.1]; exact hk)
  have hlen : ((run hashes md5 dict).events.map matchLine).length =
      (run hashes md5 dict).cracked_count := by
    rw [List.length_map]; exact hg.evlen.symm
  refine ⟨(forLoopUpTo_wf hashes d w hashes.length _ hwf k hk).2, ?_, ?_, ?_⟩
  · rw [hcnt, hev, List.length_map, List.length_append, List.length_map]
    have hev0 : (run hashes md5 dict).cracked_count = (run hashes md5 dict).events.length :=
      hg.evlen
    show (run hashes md5 dict).cracked_count + _ = (run hashes md5 dict).events.length + _
    rw [hev0]
  · rw [main_eq_run a fopen md5 argv hashes dict n hargs hload hflags hdict, hlen]
  · rw [hlen]; exact hg.wf.2

/-- C13, at the sample files: targets `helloDigest`, dictionary `foo`, `hello`,
`bar`. -/
theorem counter_counts_flags_and_lines_witness :
    (main Allocator.total sampleFiles scenarioDigest [['p'], ['h'], ['d']]).stdout =
      (run [helloDigest] scenarioDigest
          ["foo\n".toList, "hello\r\n".toList, "bar".toList]).events.map matchLine ++
        [summaryLine ((run [helloDigest] scenarioDigest
          ["foo\n".toList, "hello\r\n".toList, "bar".toList]).events.map matchLine).length] :=
  (counter_counts_flags_and_lines Allocator.total sampleFiles scenarioDigest
    [['p'], ['h'], ['d']] [helloDigest] ["foo\n".toList, "hello\r\n".toList, "bar".toList] 1
    ['z'] ['q'] [] [] 1 (by decide) (by decide) (by decide) (by decide) (by decide)).2.2.1

/-- C14: a non-empty word whose digest fails is passed over: the loop goes on
with the next line from the same flags, counter and match lines (only the logs
of reads and calls grow), and the flags, counter and match lines at the end of
the run are those of the run over the dictionary without that line. -/
theorem failed_digest_word_is_skipped (hashes : List CStr) (md5 : CStr → Option CStr)
    (pre post : List CStr) (line : CStr) (st : State)
    (hne : trim line ≠ []) (hfail : md5 (trim line) = none) :
    whileLoop hashes hashes.length md5 (line :: post) st =
      whileLoop hashes hashes.length md5 post
        { st with reads := st.reads ++ [(line, st.cracked_count)],
                  calls := st.calls ++ [(trim line, st.cracked_count)] } ∧
    (run hashes md5 (pre ++ line :: post)).events = (run hashes md5 (pre ++ post)).events ∧
    (run hashes md5 (pre ++ line :: post)).cracked = (run hashes md5 (pre ++ post)).cracked ∧
    (run hashes md5 (pre ++ line :: post)).cracked_count =
      (run hashes md5 (pre ++ post)).cracked_count := by
  have hcore := whileLoop_skip_failed hashes hashes.length md5 line post hfail pre
    (initState hashes.length)
  simp only [State.core, Prod.mk.injEq] at hcore
  refine ⟨?_, hcore.2.2, hcore.1, hcore.2.1⟩
  simp only [whileLoop, hne, if_false, hfail]

/-- C14, at the targets `"x"`, `"y"` and the dictionary `"a"`, `"c"`, `"b"`, in
which the digest of `"c"` fails. -/
theorem failed_digest_word_is_skipped_witness :
    trim ['c', '\n'] ≠ [] ∧ sampleDigest (trim ['c', '\n']) = none ∧
    (run [['x'], ['y']] sampleDigest ([['a', '\n']] ++ ['c', '\n'] :: [['b', '\n']])).events =
      (run [['x'], ['y']] sampleDigest ([['a', '\n']] ++ [['b', '\n']])).events :=
  ⟨by decide, by decide,
    (failed_digest_word_is_skipped [['x'], ['y']] sampleDigest [['a', '\n']] [['b', '\n']]
      ['c', '\n'] (initState 2) (by decide) (by decide)).2.1⟩

/-- C15: processing one candidate never clears a flag, and changes a flag (from
false to true) only at an entry whose stored digest equals the digest of the
candidate; over the whole loop a set flag stays set.  The target list is an
argument of the loop and no state carries it, so the loop cannot change it. -/
theorem cracked_flags_monotone (hashes : List CStr) (md5 : CStr → Option CStr)
    (dict : List CStr) (d w : CStr) (st : State) (j : Nat)
    (hlen : st.cracked.length = hashes.length) :
    (st.cracked.getD j false = true →
      (forLoop hashes hashes.length d w st).cracked.getD j false = true) ∧
    ((forLoop hashes hashes.length d w st).cracked.getD j false ≠ st.cracked.getD j false →
      st.cracked.getD j false = false ∧
      (forLoop hashes hashes.length d w st).cracked.getD j false = true ∧
      d = hashes.getD j []) ∧
    (st.cracked.getD j false = true →
      (whileLoop hashes hashes.length md5 dict st).cracked.getD j false = true) := by
  obtain ⟨_, hget, _⟩ := forLoopUpTo_spec hashes d w st hashes.length (le_of_eq hlen.symm)
  unfold forLoop
  refine ⟨?_, ?_, whileLoop_mono hashes md5 dict st hlen j⟩
  · intro h; rw [hget j, h]; rfl
  · intro hchg
    rw [hget j] at hchg ⊢
    cases hc : st.cracked.getD j false with
    | true => rw [hc] at hchg; exact absurd rfl hchg
    | false =>
      rw [hc] at hchg
      simp only [Bool.false_or, ne_eq, Bool.and_eq_false_imp, decide_eq_true_eq,
        decide_eq_false_iff_not, not_forall, Classical.not_imp, not_not] at hchg
      obtain ⟨h1, h2⟩ := hchg
      refine ⟨rfl, ?_, h2⟩
      simp [h1, h2]

/-- C15, at the targets `"x"`, `"y"` with the first already cracked and a
candidate with digest `"y"`. -/
theorem cracked_flags_monotone_witness :
    ({ initState 2 with cracked := [true, false] } : State).cracked.length =
      ([['x'], ['y']] : List CStr).length ∧
    (({ initState 2 with cracked := [true, false] } : State).cracked.getD 0 false = true →
      (forLoop [['x'], ['y']] ([['x'], ['y']] : List CStr).length ['y'] ['b']
        { initState 2 with cracked := [true, false] }).cracked.getD 0 false = true) :=
  ⟨by decide,
    (cracked_flags_monotone [['x'], ['y']] sampleDigest [] ['y'] ['b']
      { initState 2 with cracked := [true, false] } 0 (by decide)).1⟩

/-- C16: `load_hashes` returns `NULL` with `*out_count = 0` when the file does
not open; whenever it returns `NULL` the count is 0; and when no allocation
fails it returns `NULL` only then.  A file that opens but has only blank lines
gives the empty list with count 0, and `main` then runs to completion, printing
`0 hashes cracked!` with exit status 0. -/
theorem load_hashes_fails_only_when_unopened (a b : Allocator)
    (fopen : CStr → Option (List CStr)) (md5 : CStr → Option CStr)
    (file : Option (List CStr)) (lines argv dict : List CStr)
    (hmem : a.AllOk) (hblank : ∀ l ∈ lines, trim l = [])
    (hargs : argv.length = 3) (hhash : fopen (argv.getD 1 []) = some lines)
    (hdict : fopen (argv.getD 2 []) = some dict) :
    load_hashes b none = (none, 0) ∧
    ((load_hashes b file).1 = none → (load_hashes b file).2 = 0) ∧
    ((load_hashes a file).1 = none ↔ file = none) ∧
    load_hashes a (some lines) = (some [], 0) ∧
    main a fopen md5 argv = { stdout := ["0 hashes cracked!\n".toList], status := 0 } := by
  have hempty : loadSpec lines = [] := by
    rw [loadSpec_eq_candidates]
    unfold candidates
    rw [List.filter_eq_nil_iff]
    intro w hw
    obtain ⟨l, hl, rfl⟩ := List.mem_map.mp hw
    simp [hblank l hl]
  have hload : load_hashes a (some lines) = (some [], 0) := by
    simp only [load_hashes, hmem.1, if_true, load_loop_ok a hmem lines, hempty]
    simp
  refine ⟨rfl, load_hashes_null_count b file, ?_, hload, ?_⟩
  · constructor
    · intro h
      cases file with
      | none => rfl
      | some ls =>
        simp only [load_hashes, hmem.1, if_true, load_loop_ok a hmem ls] at h
        simp at h
    · intro h; rw [h]; rfl
  · rw [main_eq_run a fopen md5 argv [] dict 0 hargs (by rw [hhash]; exact hload)
      hmem.2.2.2 hdict]
    obtain ⟨h1, h2, _⟩ := whileLoop_empty md5 dict (initState 0) rfl
    have he : (run [] md5 dict).events = [] := h1
    have hc : (run [] md5 dict).cracked_count = 0 := h2
    rw [he, hc]; rfl

/-- C16, at the sample files with the blank-line file `"e"` as hash file. -/
theorem load_hashes_fails_only_when_unopened_witness :
    Allocator.total.AllOk ∧
    main Allocator.total sampleFiles scenarioDigest [['p'], ['e'], ['d']] =
      { stdout := ["0 hashes cracked!\n".toList], status := 0 } :=
  ⟨⟨rfl, fun _ => rfl, fun _ => rfl, rfl⟩,
    (load_hashes_fails_only_when_unopened Allocator.total Allocator.total sampleFiles
      scenarioDigest none [['\n']] [['p'], ['e'], ['d']]
      ["foo\n".toList, "hello\r\n".toList, "bar".toList]
      ⟨rfl, fun _ => rfl, fun _ => rfl, rfl⟩ (by decide) (by decide) (by decide)
      (by decide)).2.2.2.2⟩

/-- C17: when the hash file loads and the dictionary does not open, `main`
returns 1 and has written nothing to standard output. -/
theorem unopened_dictionary_exits_silently (a : Allocator) (fopen : CStr → Option (List CStr))
    (md5 : CStr → Option CStr) (argv hashes : List CStr) (n : Nat)
    (hargs : argv.length = 3)
    (hload : load_hashes a (fopen (argv.getD 1 [])) = (some hashes, n))
    (hdict : fopen (argv.getD 2 []) = none) :
    main a fopen md5 argv = { stdout := [], status := 1 } := by
  simp only [main, hargs, hload, hdict]
  cases a.callocFlags <;> simp

/-- C17, at the sample files with the missing path `"m"` as dictionary. -/
theorem unopened_dictionary_exits_silently_witness :
    ([['p'], ['h'], ['m']] : List CStr).length = 3 ∧
    sampleFiles (([['p'], ['h'], ['m']] : List CStr).getD 2 []) = none ∧
    main Allocator.total sampleFiles scenarioDigest [['p'], ['h'], ['m']] =
      { stdout := [], status := 1 } :=
  ⟨by decide, by decide,
    unopened_dictionary_exits_silently Allocator.total sampleFiles scenarioDigest
      [['p'], ['h'], ['m']] [helloDigest] 1 (by decide) (by decide) (by decide)⟩

/-- C18: a text `s` that does not end in CR or LF is what the trim loop leaves
of `s ++ "\n"`, of `s ++ "\r\n"` and of `s`.  A line that is empty after
trimming adds no target entry and changes neither the `md5` calls nor the match
events, flags and counter of a run, and no empty word is ever handed to `md5`.
Writing every line ending as `"\r\n"` instead of `"\n"` changes neither the
loaded targets nor the match events and counter of a run. -/
theorem line_ending_tolerance (a : Allocator) (hashes : List CStr) (md5 : CStr → Option CStr)
    (s blank : CStr) (pre post texts : List CStr)
    (hs : endsInLineEnd s = false) (hblank : trim blank = []) :
    (trim (s ++ ['\n']) = s ∧ trim (s ++ ['\r', '\n']) = s ∧ trim s = s) ∧
    load_hashes a (some (pre ++ blank :: post)) = load_hashes a (some (pre ++ post)) ∧
    ((run hashes md5 (pre ++ blank :: post)).events = (run hashes md5 (pre ++ post)).events ∧
      (run hashes md5 (pre ++ blank :: post)).cracked_count =
        (run hashes md5 (pre ++ post)).cracked_count ∧
      (run hashes md5 (pre ++ blank :: post)).calls = (run hashes md5 (pre ++ post)).calls) ∧
    (∀ c ∈ (run hashes md5 (pre ++ blank :: post)).calls, c.1 ≠ []) ∧
    load_hashes a (some (texts.map (fun t => t ++ ['\r', '\n']))) =
      load_hashes a (some (texts.map (fun t => t ++ ['\n']))) ∧
    ((run hashes md5 (texts.map (fun t => t ++ ['\r', '\n']))).events =
        (run hashes md5 (texts.map (fun t => t ++ ['\n']))).events ∧
      (run hashes md5 (texts.map (fun t => t ++ ['\r', '\n']))).cracked_count =
        (run hashes md5 (texts.map (fun t => t ++ ['\n']))).cracked_count) := by
  have hs0 := trim_of_not_endsInLineEnd s hs
  have hb := candidates_blank pre post blank hblank
  have hcrlf : candidates (texts.map (fun t => t ++ ['\r', '\n'])) =
      candidates (texts.map (fun t => t ++ ['\n'])) := by
    unfold candidates
    rw [List.map_map, List.map_map]
    congr 1
    apply List.map_congr_left
    intro t _
    show trim (t ++ ['\r', '\n']) = trim (t ++ ['\n'])
    rw [trim_append_crlf, trim_append_lf]
  have h1 := run_candidates hashes md5 _ _ hb
  have h2 := run_candidates hashes md5 _ _ hcrlf
  simp only [State.hashed, Prod.mk.injEq] at h1 h2
  refine ⟨⟨by rw [trim_append_lf, hs0], by rw [trim_append_crlf, hs0], hs0⟩,
    load_hashes_candidates a _ _ hb, ⟨h1.2.2.1, h1.2.1, h1.2.2.2⟩, ?_,
    load_hashes_candidates a _ _ hcrlf, ⟨h2.2.2.1, h2.2.1⟩⟩
  intro c hc
  obtain ⟨new, hn1, _, hn3⟩ := whileLoop_discovery hashes md5 (pre ++ blank :: post)
    (initState hashes.length) []
    (by simp [initState])
    (by
      intro j hj
      simp [initState, List.getD_eq_getElem?_getD, List.getElem?_replicate, hj])
  have hcalls : (run hashes md5 (pre ++ blank :: post)).calls = new := by
    unfold run; rw [hn1]; simp [initState]
  rw [hcalls] at hc
  exact candidates_ne_nil _ c.1 (hn3.subset (List.mem_map_of_mem Prod.fst hc))

/-- C18, at the text `"a"`, a blank line `"\r\n"` between `"a\n"` and `"b\n"`,
and the texts `"a"`, `"b"`. -/
theorem line_ending_tolerance_witness :
    endsInLineEnd ['a'] = false ∧ trim ['\r', '\n'] = [] ∧
    (trim (['a'] ++ ['\n']) = ['a'] ∧ trim (['a'] ++ ['\r', '\n']) = ['a'] ∧
      trim ['a'] = ['a']) ∧
    load_hashes Allocator.total (some ([['a', '\n']] ++ ['\r', '\n'] :: [['b', '\n']])) =
      load_hashes Allocator.total (some ([['a', '\n']] ++ [['b', '\n']])) :=
  ⟨by decide, by decide,
    (line_ending_tolerance Allocator.total [['x'], ['y']] sampleDigest ['a'] ['\r', '\n']
      [['a', '\n']] [['b', '\n']] [['a'], ['b']] (by decide) (by decide)).1,
    (line_ending_tolerance Allocator.total [['x'], ['y']] sampleDigest ['a'] ['\r', '\n']
      [['a', '\n']] [['b', '\n']] [['a'], ['b']] (by decide) (by decide)).2.1⟩

/-- C19: the word of a match event for entry `i` is the first candidate word of
the dictionary (first line, in order, that is non-empty after trimming and
whose digest is computed) with digest equal to the stored digest of entry `i`;
no other event of the run is about entry `i`. -/
theorem reported_word_is_first_match (hashes : List CStr) (md5 : CStr → Option CStr)
    (dict : List CStr) (e : Event) (he : e ∈ (run hashes md5 dict).events) :
    (candidates dict).find? (fun w => decide (md5 w = some (hashes.getD e.idx []))) =
      some e.word ∧
    ∀ e2 ∈ (run hashes md5 dict).events, e2.idx = e.idx → e2 = e := by
  obtain ⟨new, h1, h2, h3⟩ := whileLoop_discovery hashes md5 dict (initState hashes.length) []
    (by simp [initState])
    (by
      intro j hj
      simp [initState, List.getD_eq_getElem?_getD, List.getElem?_replicate, hj])
  have hev : (run hashes md5 dict).events =
      discovery hashes [] (digested md5 (new.map Prod.fst)) := by
    unfold run; rw [h2]; simp [initState]
  have hg := whileLoop_good hashes md5 dict (initState hashes.length) (good_init hashes md5)
  constructor
  · rw [hev] at he
    obtain ⟨_, hfind⟩ := discovery_first hashes _ [] e he
    exact find_of_prefix _ _ _ _ h3 (digested_find md5 _ _ _ hfind)
  · intro e2 he2 hidx
    exact List.inj_on_of_nodup_map hg.nodup he2 he hidx

/-- C19, at the target `"x"` and the dictionary `"q"`, `"a"`, `"a"`: the event
reports `"a"`, the first word with digest `"x"`. -/
theorem reported_word_is_first_match_witness :
    ({ idx := 0, digest := ['x'], word := ['a'] } : Event) ∈
      (run [['x']] sampleDigest [['q', '\n'], ['a', '\n'], ['a', '\n']]).events ∧
    (candidates [['q', '\n'], ['a', '\n'], ['a', '\n']]).find?
        (fun w => decide (sampleDigest w = some (([['x']] : List CStr).getD
          ({ idx := 0, digest := ['x'], word := ['a'] } : Event).idx []))) =
      some ({ idx := 0, digest := ['x'], word := ['a'] } : Event).word :=
  ⟨by decide,
    (reported_word_is_first_match [['x']] sampleDigest [['q', '\n'], ['a', '\n'], ['a', '\n']]
      { idx := 0, digest := ['x'], word := ['a'] } (by decide)).1⟩

/-- C20: the final count, which the summary line prints, is the number of
target entries, repeated digests counted separately, whose stored digest is the
computed digest of some candidate word of the dictionary; it is the same for
every reordering of the targets and of the dictionary lines. -/
theorem final_count_counts_crackable (hashes hashes2 dict dict2 : List CStr)
    (md5 : CStr → Option CStr)
    (hp : hashes.Perm hashes2) (hq : dict.Perm dict2) :
    (run hashes md5 dict).cracked_count = hashes.countP (crackable md5 dict) ∧
    (run hashes2 md5 dict2).cracked_count = (run hashes md5 dict).cracked_count ∧
    summaryLine (run hashes2 md5 dict2).cracked_count =
      summaryLine (run hashes md5 dict).cracked_count := by
  have h1 := run_count_eq hashes md5 dict
  have h2 : (run hashes2 md5 dict2).cracked_count = (run hashes md5 dict).cracked_count := by
    rw [h1, run_count_eq hashes2 md5 dict2, ← crackable_perm md5 dict dict2 hq]
    exact (hp.countP_eq _).symm
  exact ⟨h1, h2, by rw [h2]⟩

/-- C20, at the targets `"x"`, `"y"`, `"x"` and the dictionary `"b"`, `"a"`,
both with their first two elements swapped. -/
theorem final_count_counts_crackable_witness :
    (run [['y'], ['x'], ['x']] sampleDigest [['a'], ['b']]).cracked_count =
      (run [['x'], ['y'], ['x']] sampleDigest [['b'], ['a']]).cracked_count :=
  (final_count_counts_crackable [['x'], ['y'], ['x']] [['y'], ['x'], ['x']] [['b'], ['a']]
    [['a'], ['b']] sampleDigest (List.Perm.swap _ _ _) (List.Perm.swap _ _ _)).2.1

end Crack
